import Mathlib

/-!
Verification of the relay-map pipeline (src/map.py).

The pipeline has three algorithmic stages:
* `relay_pattern` / `get_details_from_consensus`: a line-anchored multi-line
  regex extracting relay records from a consensus document;
* `geo_ip` plus the point-building loop of `main`: geocoding each record's
  IP and collecting weighted points, skipping unresolvable records;
* `cluster_coordinates`: DBSCAN with `min_samples = 1` over the
  (longitude, latitude) columns, aggregating a count or weight per cluster.

The document is modelled as a list of newline-free lines (the regex is
MULTILINE and every sub-pattern is anchored with `^ ... $`, so matches are
unions of whole contiguous lines and scanning advances line by line).
Characters are `Char`, numbers are `Nat`/`ℚ` (exact arithmetic in place of
float64; distance comparisons are done on squared distances so no square
roots are needed).
-/

/-- Python's `\s` class (whitespace); `\S` is its negation.  Newlines do not
occur inside our lines, so the cases that matter are space, tab and the
rarer blank characters. -/
def isSp (c : Char) : Bool :=
  c = ' ' || c = '\t' || c = '\n' || c = '\x0d' || c = '\x0b' || c = '\x0c'

/-- Greedy `\S*`: split off the maximal prefix of non-whitespace characters. -/
def takeTok : List Char → List Char × List Char
  | [] => ([], [])
  | c :: cs =>
    if isSp c then ([], c :: cs)
    else
      let p := takeTok cs
      (c :: p.1, p.2)

/-- Greedy `\d*`: split off the maximal prefix of digits. -/
def takeDigits : List Char → List Char × List Char
  | [] => ([], [])
  | c :: cs =>
    if c.isDigit then
      let p := takeDigits cs
      (c :: p.1, p.2)
    else ([], c :: cs)

/-- Strip a literal pattern from the front of a line, or fail. -/
def stripL : List Char → List Char → Option (List Char)
  | [], l => some l
  | _ :: _, [] => none
  | p :: ps, c :: cs => if c = p then stripL ps cs else none

/-- `\S*` followed by a literal space (one token of the `r` line). -/
def tokSp (l : List Char) : Option (List Char × List Char) :=
  match takeTok l with
  | (t, ' ' :: r) => some (t, r)
  | _ => none

/-- `\S*` followed by the end of the line (`$`). -/
def tokEnd (l : List Char) : Option (List Char) :=
  match takeTok l with
  | (t, []) => some t
  | _ => none

/-- The language of `(\S ?)*`: blocks of one non-whitespace character each
optionally followed by a single space. -/
def flagsOk : List Char → Bool
  | [] => true
  | c :: ' ' :: rest2 => !isSp c && flagsOk rest2
  | [c] => !isSp c
  | c :: rest => !isSp c && flagsOk rest

/-- The eight `\S*` groups of the main `r` line (`publication` spans two). -/
structure RMain where
  nickname : List Char
  rid : List Char
  digest : List Char
  pub1 : List Char
  pub2 : List Char
  ip : List Char
  orport : List Char
  dirport : List Char
  deriving DecidableEq, Repr

/-- `^r (\S*) (\S*) (\S*) (\S* \S*) (\S*) (\S*) (\S*)$` -/
def matchR (l : List Char) : Option RMain :=
  (stripL ['r', ' '] l).bind fun r0 =>
  (tokSp r0).bind fun p1 =>
  (tokSp p1.2).bind fun p2 =>
  (tokSp p2.2).bind fun p3 =>
  (tokSp p3.2).bind fun p4 =>
  (tokSp p4.2).bind fun p5 =>
  (tokSp p5.2).bind fun p6 =>
  (tokSp p6.2).bind fun p7 =>
  (tokEnd p7.2).map fun dirport =>
    ⟨p1.1, p2.1, p3.1, p4.1, p5.1, p6.1, p7.1, dirport⟩

/-- `^a (\S*)$` (optional IPv6 line). -/
def matchA (l : List Char) : Option (List Char) :=
  (stripL ['a', ' '] l).bind tokEnd

/-- `^s ((\S ?)*)$` (status-flags line). -/
def matchS (l : List Char) : Option (List Char) :=
  (stripL ['s', ' '] l).bind fun rest =>
    if flagsOk rest then some rest else none

/-- `^v (.*)$` (version line; `.` matches everything but a newline and lines
contain no newline). -/
def matchV (l : List Char) : Option (List Char) :=
  stripL ['v', ' '] l

/-- `^pr .*$` (optional protocol line, contents ignored). -/
def matchPr (l : List Char) : Bool :=
  (stripL ['p', 'r', ' '] l).isSome

/-- Literal prefix of the bandwidth-weight line. -/
def wPre : List Char :=
  ['w', ' ', 'B', 'a', 'n', 'd', 'w', 'i', 'd', 't', 'h', '=']

/-- `^w (Bandwidth=(\d*)).*$`: the `bandwidth` group is the maximal digit run
after the literal `w Bandwidth=`; the rest of the line is matched by `.*`. -/
def matchW (l : List Char) : Option (List Char) :=
  (stripL wPre l).map fun rest => (takeDigits rest).1

/-- `^p .*$` (ports line; the whole line is captured as the `ports` group). -/
def matchP (l : List Char) : Bool :=
  (stripL ['p', ' '] l).isSome

/-- One parsed relay entry: the `groupdict()` of a `relay_pattern` match. -/
structure Record where
  nickname : List Char
  rid : List Char
  digest : List Char
  publication : List Char
  ip : List Char
  orport : List Char
  dirport : List Char
  ipv6 : Option (List Char)
  flags : List Char
  version : List Char
  bandwidth : List Char
  ports : List Char
  deriving DecidableEq, Repr

/-- Assemble a `Record` from the matched groups. -/
def mkRecord (rm : RMain) (ipv6 : Option (List Char)) (flags ver bw pl : List Char) :
    Record :=
  ⟨rm.nickname, rm.rid, rm.digest, rm.pub1 ++ ' ' :: rm.pub2, rm.ip, rm.orport,
    rm.dirport, ipv6, flags, ver, bw, pl⟩

/-- Match the mandatory tail `w`-line then `p`-line of a block. -/
def finishW (rm : RMain) (ipv6 : Option (List Char)) (flags ver : List Char) :
    List (List Char) → Option (Record × List (List Char))
  | lw :: lp :: rest =>
    match matchW lw with
    | some bw => if matchP lp then some (mkRecord rm ipv6 flags ver bw lp, rest) else none
    | none => none
  | _ => none

/-- After the `s` and `v` lines: greedily try the optional `pr` line, falling
back (regex backtracking) to matching `w` directly. -/
def afterV (rm : RMain) (ipv6 : Option (List Char)) (flags ver : List Char)
    (ls : List (List Char)) : Option (Record × List (List Char)) :=
  match ls with
  | lpr :: rest =>
    if matchPr lpr then
      match finishW rm ipv6 flags ver rest with
      | some out => some out
      | none => finishW rm ipv6 flags ver ls
    else finishW rm ipv6 flags ver ls
  | [] => none

/-- Match the mandatory `s` line then `v` line, then continue. -/
def afterSV (rm : RMain) (ipv6 : Option (List Char)) :
    List (List Char) → Option (Record × List (List Char))
  | l1 :: l2 :: rest =>
    match matchS l1 with
    | none => none
    | some flags =>
      match matchV l2 with
      | none => none
      | some ver => afterV rm ipv6 flags ver rest
  | _ => none

/-- Attempt a full `relay_pattern` match starting at the first line: the `r`
line, a greedy optional `a` line (with backtracking), then `s`, `v`,
optional `pr`, `w`, `p`. -/
def tryBlock : List (List Char) → Option (Record × List (List Char))
  | [] => none
  | lr :: rest =>
    match matchR lr with
    | none => none
    | some rm =>
      match rest with
      | [] => none
      | la :: rest' =>
        match matchA la with
        | some v6 =>
          match afterSV rm (some v6) rest' with
          | some out => some out
          | none => afterSV rm none rest
        | none => afterSV rm none rest

theorem finishW_shrink (rm : RMain) (ipv6 : Option (List Char)) (flags ver : List Char)
    (ls : List (List Char)) (r : Record) (rest : List (List Char))
    (h : finishW rm ipv6 flags ver ls = some (r, rest)) :
    rest.length + 2 = ls.length := by
  unfold finishW at h
  split at h
  case h_1 lw lp tl =>
    split at h
    · split at h
      · cases h with
        | refl => simp
      · exact absurd h (by simp)
    · exact absurd h (by simp)
  case h_2 => exact absurd h (by simp)

theorem afterV_shrink (rm : RMain) (ipv6 : Option (List Char)) (flags ver : List Char)
    (ls : List (List Char)) (r : Record) (rest : List (List Char))
    (h : afterV rm ipv6 flags ver ls = some (r, rest)) :
    rest.length + 2 ≤ ls.length := by
  unfold afterV at h
  split at h
  case h_1 lpr tl =>
    split at h
    · split at h
      case isTrue.h_1 out heq =>
        cases h with
        | refl =>
          have := finishW_shrink rm ipv6 flags ver tl r rest heq
          simp [← this]
      case isTrue.h_2 =>
        have := finishW_shrink rm ipv6 flags ver (lpr :: tl) r rest h
        omega
    · have := finishW_shrink rm ipv6 flags ver (lpr :: tl) r rest h
      omega
  case h_2 => exact absurd h (by simp)

theorem afterSV_shrink (rm : RMain) (ipv6 : Option (List Char))
    (ls : List (List Char)) (r : Record) (rest : List (List Char))
    (h : afterSV rm ipv6 ls = some (r, rest)) :
    rest.length + 4 ≤ ls.length := by
  unfold afterSV at h
  split at h
  case h_1 l1 l2 tl =>
    split at h
    · exact absurd h (by simp)
    · split at h
      · exact absurd h (by simp)
      · have := afterV_shrink rm ipv6 _ _ tl r rest h
        simp only [List.length_cons]
        omega
  case h_2 => exact absurd h (by simp)

theorem tryBlock_shrink (ls : List (List Char)) (r : Record) (rest : List (List Char))
    (h : tryBlock ls = some (r, rest)) :
    rest.length + 5 ≤ ls.length := by
  unfold tryBlock at h
  split at h
  case h_1 => exact absurd h (by simp)
  case h_2 lr tail =>
    split at h
    · exact absurd h (by simp)
    · split at h
      · exact absurd h (by simp)
      case h_2 la rest' =>
        split at h
        · split at h
          case h_1.h_1 out heq =>
            cases h with
            | refl =>
              have := afterSV_shrink _ _ rest' r rest heq
              simp only [List.length_cons]
              omega
          case h_1.h_2 =>
            have := afterSV_shrink _ _ (la :: rest') r rest h
            simp only [List.length_cons] at this ⊢
            omega
        · have := afterSV_shrink _ _ (la :: rest') r rest h
          simp only [List.length_cons] at this ⊢
          omega

/-- Fuel-indexed scanner; with fuel at least the number of lines it is the
line-level equivalent of `relay_pattern.finditer`: try a match at each line
start, on success continue after the match, otherwise advance one line. -/
def scanF : Nat → List (List Char) → List Record
  | 0, _ => []
  | _ + 1, [] => []
  | n + 1, l :: ls =>
    match tryBlock (l :: ls) with
    | some (r, rest) => r :: scanF n rest
    | none => scanF n ls

/-- `finditer` over a document given as its list of lines. -/
def scan (doc : List (List Char)) : List Record := scanF doc.length doc

/-- `get_details_from_consensus`: all `relay_pattern` matches of the document,
in document order, as their group dictionaries. -/
def get_details_from_consensus (doc : List (List Char)) : List Record := scan doc

theorem scanF_congr : ∀ (n m : Nat) (ls : List (List Char)),
    ls.length ≤ n → ls.length ≤ m → scanF n ls = scanF m ls := by
  intro n
  induction n with
  | zero =>
    intro m ls hn _
    have : ls = [] := List.length_eq_zero.mp (Nat.le_zero.mp hn)
    subst this
    cases m <;> rfl
  | succ n ih =>
    intro m ls hn hm
    match ls with
    | [] => cases m <;> rfl
    | l :: tl =>
      match m with
      | 0 => simp at hm
      | m' + 1 =>
        cases htb : tryBlock (l :: tl) with
        | some pr =>
          obtain ⟨r, rest⟩ := pr
          have hs := tryBlock_shrink _ _ _ htb
          simp only [List.length_cons] at hs hn hm
          simp only [scanF, htb]
          rw [ih m' rest (by omega) (by omega)]
        | none =>
          simp only [List.length_cons] at hn hm
          simp only [scanF, htb]
          exact ih m' tl (by omega) (by omega)

theorem scan_cons_some (l : List Char) (ls : List (List Char)) (r : Record)
    (rest : List (List Char)) (h : tryBlock (l :: ls) = some (r, rest)) :
    scan (l :: ls) = r :: scan rest := by
  have hs := tryBlock_shrink _ _ _ h
  simp only [List.length_cons] at hs
  unfold scan
  simp only [List.length_cons, scanF, h]
  rw [scanF_congr ls.length rest.length rest (by omega) (by omega)]

theorem scan_cons_none (l : List Char) (ls : List (List Char))
    (h : tryBlock (l :: ls) = none) :
    scan (l :: ls) = scan ls := by
  unfold scan
  simp only [List.length_cons, scanF, h]

/-- A well-formed `\S*` token: non-empty, no whitespace characters. -/
def tokOk (t : List Char) : Prop := t ≠ [] ∧ ∀ c ∈ t, isSp c = false

/-- Free-text line content (`.*`): anything but a newline. -/
def noNl (l : List Char) : Prop := ∀ c ∈ l, c ≠ '\n'

instance instDecTokOk (t : List Char) : Decidable (tokOk t) := by
  unfold tokOk
  infer_instance

instance instDecNoNl (l : List Char) : Decidable (noNl l) := by
  unfold noNl
  infer_instance

/-- Validity of the optional IPv6 field. -/
def ipv6Ok : Option (List Char) → Prop
  | some v6 => tokOk v6
  | none => True

instance instDecIpv6Ok (o : Option (List Char)) : Decidable (ipv6Ok o) :=
  match o with
  | some v6 => inferInstanceAs (Decidable (tokOk v6))
  | none => inferInstanceAs (Decidable True)

/-- The abstract content of one relay block of a consensus document, before
rendering it to text: the field values plus the presence of the two optional
lines. -/
structure Block where
  nickname : List Char
  rid : List Char
  digest : List Char
  pub1 : List Char
  pub2 : List Char
  ip : List Char
  orport : List Char
  dirport : List Char
  ipv6 : Option (List Char)
  flags : List Char
  version : List Char
  bw : List Char
  wsuf : List Char
  hasPr : Bool
  prSuf : List Char
  psuf : List Char
  deriving DecidableEq, Repr

/-- Well-formedness of a block: every mandatory token is a non-empty
whitespace-free word, the flags text is in the `(\S ?)*` language, the
free-text parts contain no newline, the bandwidth is a non-empty digit
string and the rest of the `w` line does not start with a digit (so the
digit run after `Bandwidth=` is exactly the bandwidth field). -/
def WFBlock (b : Block) : Prop :=
  tokOk b.nickname ∧ tokOk b.rid ∧ tokOk b.digest ∧ tokOk b.pub1 ∧ tokOk b.pub2 ∧
  tokOk b.ip ∧ tokOk b.orport ∧ tokOk b.dirport ∧
  ipv6Ok b.ipv6 ∧
  flagsOk b.flags = true ∧
  noNl b.version ∧ noNl b.wsuf ∧ noNl b.prSuf ∧ noNl b.psuf ∧
  b.bw ≠ [] ∧ (∀ c ∈ b.bw, c.isDigit = true) ∧
  (b.wsuf.head?.all fun c => !c.isDigit) = true

/-- The main `r` line of a block. -/
def rLine (b : Block) : List Char :=
  ['r', ' '] ++ (b.nickname ++ ' ' :: (b.rid ++ ' ' :: (b.digest ++ ' ' ::
    (b.pub1 ++ ' ' :: (b.pub2 ++ ' ' :: (b.ip ++ ' ' :: (b.orport ++ ' ' :: b.dirport)))))))

/-- An `a` (IPv6) line. -/
def aLine (v6 : List Char) : List Char := ['a', ' '] ++ v6

/-- The optional `a` line, as a list of zero or one lines. -/
def aLines (b : Block) : List (List Char) :=
  match b.ipv6 with
  | some v6 => [aLine v6]
  | none => []

/-- The status-flags line. -/
def sLine (b : Block) : List Char := ['s', ' '] ++ b.flags

/-- The version line. -/
def vLine (b : Block) : List Char := ['v', ' '] ++ b.version

/-- A protocol line. -/
def prLine (b : Block) : List Char := ['p', 'r', ' '] ++ b.prSuf

/-- The optional protocol line, as a list of zero or one lines. -/
def prLines (b : Block) : List (List Char) :=
  if b.hasPr then [prLine b] else []

/-- The bandwidth-weight line. -/
def wLine (b : Block) : List Char := wPre ++ (b.bw ++ b.wsuf)

/-- The ports line. -/
def pLine (b : Block) : List Char := ['p', ' '] ++ b.psuf

/-- All lines of a block, in grammar order. -/
def render (b : Block) : List (List Char) :=
  rLine b :: (aLines b ++ (sLine b :: vLine b :: (prLines b ++ [wLine b, pLine b])))

/-- The record the extractor is expected to produce for a block. -/
def recordOf (b : Block) : Record :=
  ⟨b.nickname, b.rid, b.digest, b.pub1 ++ ' ' :: b.pub2, b.ip, b.orport, b.dirport,
    b.ipv6, b.flags, b.version, b.bw, pLine b⟩

theorem takeTok_sp (t r : List Char) (h : ∀ c ∈ t, isSp c = false) :
    takeTok (t ++ ' ' :: r) = (t, ' ' :: r) := by
  induction t with
  | nil => simp [takeTok, isSp]
  | cons c cs ih =>
    have hc : isSp c = false := h c (by simp)
    have ih' := ih fun x hx => h x (by simp [hx])
    simp [takeTok, hc, ih']

theorem takeTok_end (t : List Char) (h : ∀ c ∈ t, isSp c = false) :
    takeTok t = (t, []) := by
  induction t with
  | nil => simp [takeTok]
  | cons c cs ih =>
    have hc : isSp c = false := h c (by simp)
    have ih' := ih fun x hx => h x (by simp [hx])
    simp [takeTok, hc, ih']

theorem tokSp_append (t r : List Char) (h : ∀ c ∈ t, isSp c = false) :
    tokSp (t ++ ' ' :: r) = some (t, r) := by
  simp [tokSp, takeTok_sp t r h]

theorem tokEnd_eq (t : List Char) (h : ∀ c ∈ t, isSp c = false) :
    tokEnd t = some t := by
  simp [tokEnd, takeTok_end t h]

theorem stripL_self (p l : List Char) : stripL p (p ++ l) = some l := by
  induction p with
  | nil => simp [stripL]
  | cons c cs ih => simp [stripL, ih]

theorem takeDigits_append (d rest : List Char) (hd : ∀ c ∈ d, c.isDigit = true)
    (hr : ∀ c, rest.head? = some c → c.isDigit = false) :
    takeDigits (d ++ rest) = (d, rest) := by
  induction d with
  | nil =>
    cases rest with
    | nil => simp [takeDigits]
    | cons c cs => simp [takeDigits, hr c rfl]
  | cons c cs ih =>
    have ih' := ih fun x hx => hd x (by simp [hx])
    simp [takeDigits, hd c (by simp), ih']

theorem matchR_rLine (b : Block) (h : WFBlock b) :
    matchR (rLine b) =
      some ⟨b.nickname, b.rid, b.digest, b.pub1, b.pub2, b.ip, b.orport, b.dirport⟩ := by
  obtain ⟨h1, h2, h3, h4, h5, h6, h7, h8, -⟩ := h
  simp [matchR, rLine, stripL, tokSp_append _ _ h1.2, tokSp_append _ _ h2.2,
    tokSp_append _ _ h3.2, tokSp_append _ _ h4.2, tokSp_append _ _ h5.2,
    tokSp_append _ _ h6.2, tokSp_append _ _ h7.2, tokEnd_eq _ h8.2]

theorem matchA_aLine (v6 : List Char) (h : tokOk v6) : matchA (aLine v6) = some v6 := by
  simp [matchA, aLine, stripL, tokEnd_eq _ h.2]

theorem matchS_sLine (b : Block) (h : flagsOk b.flags = true) :
    matchS (sLine b) = some b.flags := by
  simp [matchS, sLine, stripL, h]

theorem matchV_vLine (b : Block) : matchV (vLine b) = some b.version := by
  simp [matchV, vLine, stripL]

theorem matchPr_prLine (b : Block) : matchPr (prLine b) = true := by
  simp [matchPr, prLine, stripL]

theorem matchW_wLine (b : Block) (h : WFBlock b) : matchW (wLine b) = some b.bw := by
  obtain ⟨-, -, -, -, -, -, -, -, -, -, -, -, -, -, -, hd, hr⟩ := h
  have hr' : ∀ c, b.wsuf.head? = some c → c.isDigit = false := by
    intro c hc
    rw [hc] at hr
    simpa using hr
  simp [matchW, wLine, wPre, stripL, takeDigits_append _ _ hd hr']

theorem matchP_pLine (b : Block) : matchP (pLine b) = true := by
  simp [matchP, pLine, stripL]

theorem matchR_aLine (v6 : List Char) : matchR (aLine v6) = none := by
  simp [matchR, aLine, stripL]

theorem matchR_sLine (b : Block) : matchR (sLine b) = none := by
  simp [matchR, sLine, stripL]

theorem matchR_vLine (b : Block) : matchR (vLine b) = none := by
  simp [matchR, vLine, stripL]

theorem matchR_prLine (b : Block) : matchR (prLine b) = none := by
  simp [matchR, prLine, stripL]

theorem matchR_wLine (b : Block) : matchR (wLine b) = none := by
  simp [matchR, wLine, wPre, stripL]

theorem matchR_pLine (b : Block) : matchR (pLine b) = none := by
  simp [matchR, pLine, stripL]

theorem matchA_sLine (b : Block) : matchA (sLine b) = none := by
  simp [matchA, sLine, stripL]

theorem matchA_vLine (b : Block) : matchA (vLine b) = none := by
  simp [matchA, vLine, stripL]

theorem matchS_aLine (v6 : List Char) : matchS (aLine v6) = none := by
  simp [matchS, aLine, stripL]

theorem matchS_vLine (b : Block) : matchS (vLine b) = none := by
  simp [matchS, vLine, stripL]

theorem matchV_prLine (b : Block) : matchV (prLine b) = none := by
  simp [matchV, prLine, stripL]

theorem matchV_wLine (b : Block) : matchV (wLine b) = none := by
  simp [matchV, wLine, wPre, stripL]

theorem matchPr_wLine (b : Block) : matchPr (wLine b) = false := by
  simp [matchPr, wLine, wPre, stripL]

theorem matchPr_pLine (b : Block) : matchPr (pLine b) = false := by
  simp [matchPr, pLine, stripL]

theorem matchW_prLine (b : Block) : matchW (prLine b) = none := by
  simp [matchW, prLine, wPre, stripL]

theorem matchW_pLine (b : Block) : matchW (pLine b) = none := by
  simp [matchW, pLine, wPre, stripL]

theorem matchP_rLine (b : Block) : matchP (rLine b) = false := by
  simp [matchP, rLine, stripL]

theorem tryBlock_render (b : Block) (h : WFBlock b) (rest : List (List Char)) :
    tryBlock (render b ++ rest) = some (recordOf b, rest) := by
  have hR := matchR_rLine b h
  have hW := matchW_wLine b h
  obtain ⟨-, -, -, -, -, -, -, -, h9, h10, -⟩ := h
  have hS := matchS_sLine b h10
  have hV := matchV_vLine b
  have hP := matchP_pLine b
  cases hv6 : b.ipv6 with
  | some v6 =>
    rw [hv6] at h9
    have hA := matchA_aLine v6 h9
    cases hpr : b.hasPr with
    | true =>
      simp [render, aLines, prLines, hv6, hpr, tryBlock, hR, hA, afterSV, hS, hV,
        afterV, matchPr_prLine, finishW, hW, hP, recordOf, mkRecord]
    | false =>
      simp [render, aLines, prLines, hv6, hpr, tryBlock, hR, hA, afterSV, hS, hV,
        afterV, matchPr_wLine, finishW, hW, hP, recordOf, mkRecord]
  | none =>
    cases hpr : b.hasPr with
    | true =>
      simp [render, aLines, prLines, hv6, hpr, tryBlock, hR, matchA_sLine, afterSV,
        hS, hV, afterV, matchPr_prLine, finishW, hW, hP, recordOf, mkRecord]
    | false =>
      simp [render, aLines, prLines, hv6, hpr, tryBlock, hR, matchA_sLine, afterSV,
        hS, hV, afterV, matchPr_wLine, finishW, hW, hP, recordOf, mkRecord]

theorem scan_render (b : Block) (h : WFBlock b) (rest : List (List Char)) :
    scan (render b ++ rest) = recordOf b :: scan rest := by
  have ht := tryBlock_render b h rest
  have hform : render b ++ rest =
      rLine b :: ((aLines b ++ (sLine b :: vLine b :: (prLines b ++ [wLine b, pLine b]))) ++ rest) := by
    simp [render]
  rw [hform] at ht ⊢
  exact scan_cons_some _ _ _ _ ht

/-- C2 engine: a document that is a concatenation of well-formed blocks is
parsed into exactly one record per block, in order. -/
theorem scan_renders (bs : List Block) (h : ∀ b ∈ bs, WFBlock b) :
    scan (bs.map render).flatten = bs.map recordOf := by
  induction bs with
  | nil => rfl
  | cons b rest ih =>
    simp only [List.map_cons, List.flatten_cons]
    rw [scan_render b (h b (by simp)), ih fun x hx => h x (by simp [hx])]

/-- The five mandatory line kinds of a relay block. -/
inductive Mand where
  | r
  | s
  | v
  | w
  | p
  deriving DecidableEq, Repr

/-- Render a block with one mandatory line removed (a malformed block). -/
def renderDrop : Mand → Block → List (List Char)
  | .r, b => aLines b ++ (sLine b :: vLine b :: (prLines b ++ [wLine b, pLine b]))
  | .s, b => rLine b :: (aLines b ++ (vLine b :: (prLines b ++ [wLine b, pLine b])))
  | .v, b => rLine b :: (aLines b ++ (sLine b :: (prLines b ++ [wLine b, pLine b])))
  | .w, b => rLine b :: (aLines b ++ (sLine b :: vLine b :: (prLines b ++ [pLine b])))
  | .p, b => rLine b :: (aLines b ++ (sLine b :: vLine b :: (prLines b ++ [wLine b])))

theorem tryBlock_skip (l : List Char) (ls : List (List Char)) (h : matchR l = none) :
    tryBlock (l :: ls) = none := by
  simp [tryBlock, h]

theorem scan_skip (l : List Char) (ls : List (List Char)) (h : matchR l = none) :
    scan (l :: ls) = scan ls :=
  scan_cons_none l ls (tryBlock_skip l ls h)

theorem scan_skips (ls tail : List (List Char)) (h : ∀ l ∈ ls, matchR l = none) :
    scan (ls ++ tail) = scan tail := by
  induction ls with
  | nil => rfl
  | cons l rest ih =>
    rw [List.cons_append, scan_skip l _ (h l (by simp)), ih fun x hx => h x (by simp [hx])]

theorem matchR_aLines (b : Block) (l : List Char) (hl : l ∈ aLines b) :
    matchR l = none := by
  unfold aLines at hl
  cases h : b.ipv6 with
  | some v6 => rw [h] at hl; simp at hl; rw [hl]; exact matchR_aLine v6
  | none => rw [h] at hl; simp at hl

theorem matchR_prLines (b : Block) (l : List Char) (hl : l ∈ prLines b) :
    matchR l = none := by
  unfold prLines at hl
  cases h : b.hasPr with
  | true => rw [h] at hl; simp at hl; rw [hl]; exact matchR_prLine b
  | false => rw [h] at hl; simp at hl

theorem matchR_dropRest (b : Block) (l : List Char)
    (hl : l ∈ aLines b ∨ l = sLine b ∨ l = vLine b ∨ l ∈ prLines b ∨
      l = wLine b ∨ l = pLine b) :
    matchR l = none := by
  rcases hl with h | h | h | h | h | h
  · exact matchR_aLines b l h
  · rw [h]; exact matchR_sLine b
  · rw [h]; exact matchR_vLine b
  · exact matchR_prLines b l h
  · rw [h]; exact matchR_wLine b
  · rw [h]; exact matchR_pLine b

/-- C8 engine: a block with one mandatory line missing produces no record and
parsing resumes correctly at the next block. -/
theorem scan_renderDrop (k : Mand) (bm b2 : Block) (hm : WFBlock bm) (h2 : WFBlock b2)
    (rest : List (List Char)) :
    scan (renderDrop k bm ++ (render b2 ++ rest)) = recordOf b2 :: scan rest := by
  have hR := matchR_rLine bm hm
  have hW := matchW_wLine bm hm
  obtain ⟨-, -, -, -, -, -, -, -, h9, h10, -⟩ := hm
  have hS := matchS_sLine bm h10
  cases k with
  | r =>
    rw [scan_skips _ _ fun l hl => matchR_dropRest bm l (by simp [renderDrop] at hl; tauto)]
    exact scan_render b2 h2 rest
  | s =>
    have hform : renderDrop Mand.s bm ++ (render b2 ++ rest) =
        rLine bm ::
          ((aLines bm ++ (vLine bm :: (prLines bm ++ [wLine bm, pLine bm]))) ++
            (render b2 ++ rest)) := by
      simp [renderDrop]
    have htb : tryBlock (rLine bm ::
        ((aLines bm ++ (vLine bm :: (prLines bm ++ [wLine bm, pLine bm]))) ++
          (render b2 ++ rest))) = none := by
      cases hv6 : bm.ipv6 with
      | some v6 =>
        rw [hv6] at h9
        cases hpr : bm.hasPr with
        | true =>
          simp [aLines, prLines, hv6, hpr, tryBlock, hR, matchA_aLine v6 h9, afterSV,
            matchS_vLine, matchS_aLine]
        | false =>
          simp [aLines, prLines, hv6, hpr, tryBlock, hR, matchA_aLine v6 h9, afterSV,
            matchS_vLine, matchS_aLine]
      | none =>
        cases hpr : bm.hasPr with
        | true =>
          simp [aLines, prLines, hv6, hpr, tryBlock, hR, matchA_vLine, afterSV,
            matchS_vLine]
        | false =>
          simp [aLines, prLines, hv6, hpr, tryBlock, hR, matchA_vLine, afterSV,
            matchS_vLine]
    rw [hform, scan_cons_none _ _ htb,
      scan_skips _ _ fun l hl => matchR_dropRest bm l (by simp at hl; tauto)]
    exact scan_render b2 h2 rest
  | v =>
    have hform : renderDrop Mand.v bm ++ (render b2 ++ rest) =
        rLine bm ::
          ((aLines bm ++ (sLine bm :: (prLines bm ++ [wLine bm, pLine bm]))) ++
            (render b2 ++ rest)) := by
      simp [renderDrop]
    have htb : tryBlock (rLine bm ::
        ((aLines bm ++ (sLine bm :: (prLines bm ++ [wLine bm, pLine bm]))) ++
          (render b2 ++ rest))) = none := by
      cases hv6 : bm.ipv6 with
      | some v6 =>
        rw [hv6] at h9
        cases hpr : bm.hasPr with
        | true =>
          simp [aLines, prLines, hv6, hpr, tryBlock, hR, matchA_aLine v6 h9, afterSV,
            hS, matchV_prLine, matchS_aLine]
        | false =>
          simp [aLines, prLines, hv6, hpr, tryBlock, hR, matchA_aLine v6 h9, afterSV,
            hS, matchV_wLine, matchS_aLine]
      | none =>
        cases hpr : bm.hasPr with
        | true =>
          simp [aLines, prLines, hv6, hpr, tryBlock, hR, matchA_sLine, afterSV, hS,
            matchV_prLine]
        | false =>
          simp [aLines, prLines, hv6, hpr, tryBlock, hR, matchA_sLine, afterSV, hS,
            matchV_wLine]
    rw [hform, scan_cons_none _ _ htb,
      scan_skips _ _ fun l hl => matchR_dropRest bm l (by simp at hl; tauto)]
    exact scan_render b2 h2 rest
  | w =>
    have hform : renderDrop Mand.w bm ++ (render b2 ++ rest) =
        rLine bm ::
          ((aLines bm ++ (sLine bm :: vLine bm :: (prLines bm ++ [pLine bm]))) ++
            (render b2 ++ rest)) := by
      simp [renderDrop]
    have htb : tryBlock (rLine bm ::
        ((aLines bm ++ (sLine bm :: vLine bm :: (prLines bm ++ [pLine bm]))) ++
          (render b2 ++ rest))) = none := by
      cases hv6 : bm.ipv6 with
      | some v6 =>
        rw [hv6] at h9
        cases hpr : bm.hasPr with
        | true =>
          simp [aLines, prLines, hv6, hpr, tryBlock, hR, matchA_aLine v6 h9, afterSV,
            hS, matchV_vLine, afterV, matchPr_prLine, finishW, matchW_pLine,
            matchW_prLine, matchS_aLine, render]
        | false =>
          simp [aLines, prLines, hv6, hpr, tryBlock, hR, matchA_aLine v6 h9, afterSV,
            hS, matchV_vLine, afterV, matchPr_pLine, finishW, matchW_pLine,
            matchS_aLine, render]
      | none =>
        cases hpr : bm.hasPr with
        | true =>
          simp [aLines, prLines, hv6, hpr, tryBlock, hR, matchA_sLine, afterSV, hS,
            matchV_vLine, afterV, matchPr_prLine, finishW, matchW_pLine, matchW_prLine,
            render]
        | false =>
          simp [aLines, prLines, hv6, hpr, tryBlock, hR, matchA_sLine, afterSV, hS,
            matchV_vLine, afterV, matchPr_pLine, finishW, matchW_pLine, render]
    rw [hform, scan_cons_none _ _ htb,
      scan_skips _ _ fun l hl => matchR_dropRest bm l (by simp at hl; tauto)]
    exact scan_render b2 h2 rest
  | p =>
    have hform : renderDrop Mand.p bm ++ (render b2 ++ rest) =
        rLine bm ::
          ((aLines bm ++ (sLine bm :: vLine bm :: (prLines bm ++ [wLine bm]))) ++
            (render b2 ++ rest)) := by
      simp [renderDrop]
    have htb : tryBlock (rLine bm ::
        ((aLines bm ++ (sLine bm :: vLine bm :: (prLines bm ++ [wLine bm]))) ++
          (render b2 ++ rest))) = none := by
      cases hv6 : bm.ipv6 with
      | some v6 =>
        rw [hv6] at h9
        cases hpr : bm.hasPr with
        | true =>
          simp [aLines, prLines, hv6, hpr, tryBlock, hR, matchA_aLine v6 h9, afterSV,
            hS, matchV_vLine, afterV, matchPr_prLine, finishW, hW, matchP_rLine,
            matchW_prLine, matchS_aLine, render]
        | false =>
          simp [aLines, prLines, hv6, hpr, tryBlock, hR, matchA_aLine v6 h9, afterSV,
            hS, matchV_vLine, afterV, matchPr_wLine, finishW, hW, matchP_rLine,
            matchS_aLine, render]
      | none =>
        cases hpr : bm.hasPr with
        | true =>
          simp [aLines, prLines, hv6, hpr, tryBlock, hR, matchA_sLine, afterSV, hS,
            matchV_vLine, afterV, matchPr_prLine, finishW, hW, matchP_rLine,
            matchW_prLine, render]
        | false =>
          simp [aLines, prLines, hv6, hpr, tryBlock, hR, matchA_sLine, afterSV, hS,
            matchV_vLine, afterV, matchPr_wLine, finishW, hW, matchP_rLine, render]
    rw [hform, scan_cons_none _ _ htb,
      scan_skips _ _ fun l hl => matchR_dropRest bm l (by simp at hl; tauto)]
    exact scan_render b2 h2 rest

/-- Value of a digit string (what Python's `int` returns on an all-digit
string). -/
def natOfDigits (l : List Char) : ℕ :=
  l.foldl (fun n c => 10 * n + (c.toNat - 48)) 0

/-- Python's `int(s)` on the strings produced by the `bandwidth` group (which
are always all-digit, possibly empty): the empty string raises `ValueError`,
otherwise the numeric value is returned. -/
def pyInt (l : List Char) : Except String ℕ :=
  if l ≠ [] ∧ ∀ c ∈ l, c.isDigit = true then Except.ok (natOfDigits l)
  else Except.error "invalid literal for int() with base 10"

/-- Modelled from the spec: the geocoder adapter backing `geo_ip` (the geoip2
database reader) is an external collaborator.  Per the spec's external
interface (a single operation returning `Optional GeoPoint`, where failures
and unknown addresses return null data rather than raising per IP), a reader
maps the IP text to the optional longitude and latitude fields of the
response's location. -/
def Reader : Type := List Char → Option ℚ × Option ℚ

/-- `geo_ip`: geocode an IP with the given reader, returning the pair
(longitude, latitude) exactly as found in the response location. -/
def geo_ip (ip : List Char) (reader : Reader) : Option ℚ × Option ℚ := reader ip

/-- The diagnostic `main` prints for an IP it could not geocode. -/
def mkDiag (ip : List Char) : List Char :=
  "Could not geocode the following IP: ".toList ++ ip ++ ". Skipping it".toList

/-- A weighted point, one row of the `points` array of `main`:
`[longitude, latitude, bandwidth]`. -/
structure WPoint where
  lon : ℚ
  lat : ℚ
  w : ℚ
  deriving DecidableEq, Repr

/-- The point-building loop of `main`: geocode every relay in order; a relay
whose location has a missing coordinate produces a diagnostic and no point;
otherwise a point is appended whose weight is `int(relay bandwidth)` (whose
failure, on a non-numeric string, aborts the run). -/
def buildPoints (reader : Reader) :
    List Record → Except String (List (List Char) × List WPoint)
  | [] => Except.ok ([], [])
  | rec :: rest =>
    match geo_ip rec.ip reader with
    | (some lo, some la) =>
      match pyInt rec.bandwidth with
      | Except.ok b =>
        match buildPoints reader rest with
        | Except.ok (ds, ps) => Except.ok (ds, ⟨lo, la, (b : ℚ)⟩ :: ps)
        | Except.error e => Except.error e
      | Except.error e => Except.error e
    | _ =>
      match buildPoints reader rest with
      | Except.ok (ds, ps) => Except.ok (mkDiag rec.ip :: ds, ps)
      | Except.error e => Except.error e

/-- The `(longitude, latitude)` columns of a point — the only data the
clustering distance looks at. -/
def coords (p : WPoint) : ℚ × ℚ := (p.lon, p.lat)

/-- Squared Euclidean distance of two coordinate pairs. -/
def distSq (a b : ℚ × ℚ) : ℚ := (a.1 - b.1) ^ 2 + (a.2 - b.2) ^ 2

/-- Indexing into the point list (rows of the coordinates array). -/
def pget (pts : List WPoint) (i : ℕ) : WPoint := pts.getD i ⟨0, 0, 0⟩

/-- Neighborhood test of DBSCAN: distance at most `eps` (compared on
squares). -/
def adjB (pts : List WPoint) (eps : ℚ) (i j : ℕ) : Bool :=
  decide (distSq (coords (pget pts i)) (coords (pget pts j)) ≤ eps ^ 2)

/-- The `eps`-neighborhood graph on the row indices of the point list. -/
def Adj (pts : List WPoint) (eps : ℚ) (i j : ℕ) : Prop :=
  i < pts.length ∧ j < pts.length ∧ adjB pts eps i j = true

/-- Connectivity in the `eps`-neighborhood graph. -/
def Reach (pts : List WPoint) (eps : ℚ) : ℕ → ℕ → Prop :=
  Relation.ReflTransGen (Adj pts eps)

/-- One step of reachable-set expansion: add every in-range index adjacent to
the set. -/
def expand (pts : List WPoint) (eps : ℚ) (s : Finset ℕ) : Finset ℕ :=
  s ∪ (Finset.range pts.length).filter fun j => ∃ i ∈ s, adjB pts eps i j = true

/-- All indices reachable from `i` (expansion stabilizes after at most
`pts.length` rounds). -/
def reachSet (pts : List WPoint) (eps : ℚ) (i : ℕ) : Finset ℕ :=
  (expand pts eps)^[pts.length] {i}

theorem subset_iterate_expand (pts : List WPoint) (eps : ℚ) (s : Finset ℕ) (k : ℕ) :
    s ⊆ (expand pts eps)^[k] s := by
  induction k with
  | zero => simp
  | succ k ih =>
    rw [Function.iterate_succ_apply']
    exact ih.trans Finset.subset_union_left

theorem mem_reachSet_self (pts : List WPoint) (eps : ℚ) (i : ℕ) :
    i ∈ reachSet pts eps i :=
  subset_iterate_expand pts eps {i} pts.length (Finset.mem_singleton_self i)

/-- Modelled from the spec: sklearn's `DBSCAN(eps, min_samples=1).labels_`
is an external collaborator; with `min_samples = 1` every point is a core
point, so (per the spec's clustering policy) the clusters are exactly the
connected components of the `eps`-neighborhood graph and no noise label `-1`
occurs.  We label each row by the least row index of its component. -/
def labels (pts : List WPoint) (eps : ℚ) (i : ℕ) : ℕ :=
  (reachSet pts eps i).min' ⟨i, mem_reachSet_self pts eps i⟩

theorem distSq_comm (a b : ℚ × ℚ) : distSq a b = distSq b a := by
  unfold distSq
  ring

theorem adjB_comm (pts : List WPoint) (eps : ℚ) (i j : ℕ) :
    adjB pts eps i j = adjB pts eps j i := by
  unfold adjB
  rw [distSq_comm]

theorem adj_symm (pts : List WPoint) (eps : ℚ) (i j : ℕ) (h : Adj pts eps i j) :
    Adj pts eps j i :=
  ⟨h.2.1, h.1, by rw [adjB_comm]; exact h.2.2⟩

theorem adj_self (pts : List WPoint) (eps : ℚ) (i : ℕ) (hi : i < pts.length) :
    Adj pts eps i i := by
  refine ⟨hi, hi, ?_⟩
  unfold adjB
  rw [decide_eq_true_eq]
  have : distSq (coords (pget pts i)) (coords (pget pts i)) = 0 := by
    unfold distSq
    ring
  rw [this]
  positivity

theorem reach_symm (pts : List WPoint) (eps : ℚ) (i j : ℕ)
    (h : Reach pts eps i j) : Reach pts eps j i :=
  Relation.ReflTransGen.symmetric (fun _ _ hab => adj_symm pts eps _ _ hab) h

theorem iterate_expand_subset_range (pts : List WPoint) (eps : ℚ) (s : Finset ℕ)
    (hs : s ⊆ Finset.range pts.length) (k : ℕ) :
    (expand pts eps)^[k] s ⊆ Finset.range pts.length := by
  induction k with
  | zero => exact hs
  | succ k ih =>
    rw [Function.iterate_succ_apply']
    exact Finset.union_subset ih (Finset.filter_subset _ _)

theorem reachSet_subset_range (pts : List WPoint) (eps : ℚ) (i : ℕ)
    (hi : i < pts.length) :
    reachSet pts eps i ⊆ Finset.range pts.length :=
  iterate_expand_subset_range pts eps {i}
    (by simp [Finset.singleton_subset_iff, hi]) pts.length

theorem reach_of_mem_iterate (pts : List WPoint) (eps : ℚ) (i : ℕ)
    (hi : i < pts.length) (k : ℕ) :
    ∀ j ∈ (expand pts eps)^[k] {i}, Reach pts eps i j := by
  induction k with
  | zero =>
    intro j hj
    simp only [Function.iterate_zero_apply, Finset.mem_singleton] at hj
    rw [hj]
    exact Relation.ReflTransGen.refl
  | succ k ih =>
    intro j hj
    rw [Function.iterate_succ_apply'] at hj
    unfold expand at hj
    rcases Finset.mem_union.mp hj with h | h
    · exact ih j h
    · rw [Finset.mem_filter] at h
      obtain ⟨hjr, i', hi', hadj⟩ := h
      have hi'n : i' < pts.length :=
        Finset.mem_range.mp
          (iterate_expand_subset_range pts eps {i}
            (by simp [Finset.singleton_subset_iff, hi]) k hi')
      exact (ih i' hi').tail ⟨hi'n, Finset.mem_range.mp hjr, hadj⟩

theorem expand_reachSet (pts : List WPoint) (eps : ℚ) (i : ℕ)
    (hi : i < pts.length) :
    expand pts eps (reachSet pts eps i) = reachSet pts eps i := by
  by_cases hstab : ∃ k < pts.length,
      (expand pts eps)^[k + 1] {i} = (expand pts eps)^[k] {i}
  · obtain ⟨k, hk, heq⟩ := hstab
    have hfix : ∀ m, (expand pts eps)^[k + m] {i} = (expand pts eps)^[k] {i} := by
      intro m
      induction m with
      | zero => rfl
      | succ m ih =>
        rw [show k + (m + 1) = (k + m) + 1 by omega, Function.iterate_succ_apply', ih,
          ← Function.iterate_succ_apply' (expand pts eps) k {i}, heq]
    have h1 : reachSet pts eps i = (expand pts eps)^[k] {i} := by
      unfold reachSet
      rw [show pts.length = k + (pts.length - k) by omega, hfix]
    rw [h1, ← Function.iterate_succ_apply' (expand pts eps) k {i}, heq]
  · exfalso
    push_neg at hstab
    have hgrow : ∀ k ≤ pts.length, k + 1 ≤ ((expand pts eps)^[k] {i}).card := by
      intro k
      induction k with
      | zero => intro _; simp
      | succ k ih =>
        intro hk
        have h1 := ih (by omega)
        have hss : (expand pts eps)^[k] {i} ⊂ (expand pts eps)^[k + 1] {i} := by
          refine HasSubset.Subset.ssubset_of_ne ?_ ?_
          · rw [Function.iterate_succ_apply']
            exact Finset.subset_union_left
          · intro hh
            exact hstab k (by omega) hh.symm
        have h2 := Finset.card_lt_card hss
        omega
    have h1 := hgrow pts.length le_rfl
    have h2 := Finset.card_le_card (reachSet_subset_range pts eps i hi)
    rw [Finset.card_range] at h2
    unfold reachSet at h2
    omega

theorem mem_reachSet_of_reach (pts : List WPoint) (eps : ℚ) (i j : ℕ)
    (hi : i < pts.length) (h : Reach pts eps i j) : j ∈ reachSet pts eps i := by
  induction h with
  | refl => exact mem_reachSet_self pts eps i
  | tail hab hbc ih =>
    rw [← expand_reachSet pts eps i hi]
    unfold expand
    apply Finset.mem_union_right
    rw [Finset.mem_filter]
    exact ⟨Finset.mem_range.mpr hbc.2.1, _, ih, hbc.2.2⟩

theorem mem_reachSet_iff (pts : List WPoint) (eps : ℚ) (i j : ℕ)
    (hi : i < pts.length) :
    j ∈ reachSet pts eps i ↔ Reach pts eps i j :=
  ⟨fun h => reach_of_mem_iterate pts eps i hi pts.length j h,
   mem_reachSet_of_reach pts eps i j hi⟩

theorem min'_congr (s t : Finset ℕ) (hs : s.Nonempty) (ht : t.Nonempty) (h : s = t) :
    s.min' hs = t.min' ht := by
  subst h
  rfl

theorem reachSet_eq_of_reach (pts : List WPoint) (eps : ℚ) (i j : ℕ)
    (hi : i < pts.length) (hj : j < pts.length) (h : Reach pts eps i j) :
    reachSet pts eps i = reachSet pts eps j := by
  ext x
  rw [mem_reachSet_iff pts eps i x hi, mem_reachSet_iff pts eps j x hj]
  constructor
  · intro hx
    exact Relation.ReflTransGen.trans (reach_symm pts eps i j h) hx
  · intro hx
    exact Relation.ReflTransGen.trans h hx

/-- Two rows get the same DBSCAN label exactly when they are connected in the
`eps`-neighborhood graph. -/
theorem labels_eq_iff (pts : List WPoint) (eps : ℚ) (i j : ℕ)
    (hi : i < pts.length) (hj : j < pts.length) :
    labels pts eps i = labels pts eps j ↔ Reach pts eps i j := by
  constructor
  · intro h
    have h1 : labels pts eps i ∈ reachSet pts eps i := Finset.min'_mem _ _
    have h2 : labels pts eps j ∈ reachSet pts eps j := Finset.min'_mem _ _
    rw [mem_reachSet_iff pts eps i _ hi] at h1
    rw [mem_reachSet_iff pts eps j _ hj] at h2
    rw [h] at h1
    exact Relation.ReflTransGen.trans h1 (reach_symm pts eps j _ h2)
  · intro h
    exact min'_congr _ _ _ _ (reachSet_eq_of_reach pts eps i j hi hj h)

theorem labels_lt (pts : List WPoint) (eps : ℚ) (i : ℕ) (hi : i < pts.length) :
    labels pts eps i < pts.length :=
  Finset.mem_range.mp
    (reachSet_subset_range pts eps i hi (Finset.min'_mem _ _))

theorem reach_labels (pts : List WPoint) (eps : ℚ) (i : ℕ) (hi : i < pts.length) :
    Reach pts eps i (labels pts eps i) := by
  rw [← mem_reachSet_iff pts eps i _ hi]
  exact Finset.min'_mem _ _

/-- Labels are idempotent: the label of a row's label is the label itself. -/
theorem labels_labels (pts : List WPoint) (eps : ℚ) (i : ℕ) (hi : i < pts.length) :
    labels pts eps (labels pts eps i) = labels pts eps i :=
  ((labels_eq_iff pts eps _ i (labels_lt pts eps i hi) hi).mpr
    (reach_symm pts eps _ _ (reach_labels pts eps i hi))).symm ▸ rfl

/-- The distinct labels, in first-occurrence order (the iteration order of
Python's `set(labels)` is not specified; only the collection matters). -/
def uniqueLabels (pts : List WPoint) (eps : ℚ) : List ℕ :=
  ((List.range pts.length).map (labels pts eps)).dedup

/-- The row indices of one cluster (`labels == label` boolean mask), in row
order. -/
def memberIdx (pts : List WPoint) (eps : ℚ) (lab : ℕ) : List ℕ :=
  (List.range pts.length).filter fun i => decide (labels pts eps i = lab)

/-- The member points of one cluster (`coordinates[cluster_mask]`). -/
def memberList (pts : List WPoint) (eps : ℚ) (lab : ℕ) : List WPoint :=
  (memberIdx pts eps lab).map (pget pts)

/-- `np.mean(cluster_points[:, [0, 1]], axis=0)`: the column-wise mean of the
longitude and latitude columns of a cluster. -/
def clusterCenter (ms : List WPoint) : ℚ × ℚ :=
  ((ms.map WPoint.lon).sum / ms.length, (ms.map WPoint.lat).sum / ms.length)

/-- The aggregate of a cluster: `np.sum(cluster_points[:, [2]])` in weight
mode, `len(cluster_points)` in count mode. -/
def clusterValue (weight : Bool) (ms : List WPoint) : ℚ :=
  if weight then (ms.map WPoint.w).sum else (ms.length : ℚ)

/-- The `list(zip(cluster_centers, cluster_counts))` of `cluster_coordinates`:
one `(center, aggregate)` pair per distinct label.  The `label == -1` skip of
the source is vacuous since `min_samples = 1` produces no noise label. -/
def clustersOf (pts : List WPoint) (eps : ℚ) (weight : Bool) : List ((ℚ × ℚ) × ℚ) :=
  (uniqueLabels pts eps).map fun lab =>
    (clusterCenter (memberList pts eps lab), clusterValue weight (memberList pts eps lab))

/-- `cluster_coordinates`: cluster the rows, returning the cluster list
together with `max(cluster_counts)` and `min(cluster_counts)`.  On an empty
input the source raises (the 2-D indexing of an empty array, `DBSCAN.fit`
and `max()` on an empty sequence all raise) — modelled as the error case,
which happens exactly when no cluster exists. -/
def cluster_coordinates (pts : List WPoint) (eps : ℚ) (weight : Bool) :
    Except String (List ((ℚ × ℚ) × ℚ) × ℚ × ℚ) :=
  match clustersOf pts eps weight with
  | [] => Except.error "zero-size array to reduction operation"
  | c :: cs =>
    Except.ok (c :: cs, (cs.map Prod.snd).foldl max c.2, (cs.map Prod.snd).foldl min c.2)

/-- What `main` hands to the rendering stage: the clusters, the color-scale
bounds `vmax`/`vmin`, plus the diagnostics printed along the way. -/
structure RunOutput where
  clusters : List ((ℚ × ℚ) × ℚ)
  vmax : ℚ
  vmin : ℚ
  diagnostics : List (List Char)
  deriving DecidableEq, Repr

/-- `main`: parse the consensus, geocode each relay (skipping, with a
diagnostic, relays whose location is missing), cluster the points and return
everything the map rendering consumes.  Errors abort the run before any
output is produced.  (Named `mainRun` because Lean reserves `main`.) -/
def mainRun (doc : List (List Char)) (reader : Reader) (eps : ℚ) (weight : Bool) :
    Except String RunOutput :=
  match buildPoints reader (get_details_from_consensus doc) with
  | Except.error e => Except.error e
  | Except.ok (ds, points) =>
    match cluster_coordinates points eps weight with
    | Except.error e => Except.error e
    | Except.ok (cs, vmax, vmin) => Except.ok ⟨cs, vmax, vmin, ds⟩

theorem nodup_uniqueLabels (pts : List WPoint) (eps : ℚ) :
    (uniqueLabels pts eps).Nodup :=
  List.nodup_dedup _

theorem mem_uniqueLabels_iff (pts : List WPoint) (eps : ℚ) (lab : ℕ) :
    lab ∈ uniqueLabels pts eps ↔ ∃ i, i < pts.length ∧ labels pts eps i = lab := by
  simp [uniqueLabels]

theorem mem_memberIdx_iff (pts : List WPoint) (eps : ℚ) (lab i : ℕ) :
    i ∈ memberIdx pts eps lab ↔ i < pts.length ∧ labels pts eps i = lab := by
  simp [memberIdx]

theorem nodup_memberIdx (pts : List WPoint) (eps : ℚ) (lab : ℕ) :
    (memberIdx pts eps lab).Nodup :=
  (List.nodup_range _).filter _

theorem uniqueLabels_ne_nil (pts : List WPoint) (eps : ℚ) (h : pts ≠ []) :
    uniqueLabels pts eps ≠ [] := by
  have h0 : 0 < pts.length := List.length_pos.mpr h
  have : labels pts eps 0 ∈ uniqueLabels pts eps :=
    (mem_uniqueLabels_iff pts eps _).mpr ⟨0, h0, rfl⟩
  exact List.ne_nil_of_mem this

theorem memberIdx_ne_nil (pts : List WPoint) (eps : ℚ) (lab : ℕ)
    (h : lab ∈ uniqueLabels pts eps) : memberIdx pts eps lab ≠ [] := by
  obtain ⟨i, hi, hl⟩ := (mem_uniqueLabels_iff pts eps lab).mp h
  exact List.ne_nil_of_mem ((mem_memberIdx_iff pts eps lab i).mpr ⟨hi, hl⟩)

theorem memberList_ne_nil (pts : List WPoint) (eps : ℚ) (lab : ℕ)
    (h : lab ∈ uniqueLabels pts eps) : memberList pts eps lab ≠ [] := by
  unfold memberList
  simp only [ne_eq, List.map_eq_nil_iff]
  exact memberIdx_ne_nil pts eps lab h

theorem sum_toFinset_of_nodup (l : List ℕ) (f : ℕ → ℚ) (h : l.Nodup) :
    l.toFinset.sum f = (l.map f).sum := by
  induction l with
  | nil => simp
  | cons a t ih =>
    rw [List.toFinset_cons, Finset.sum_insert (by
      rw [List.mem_toFinset]
      exact (List.nodup_cons.mp h).1)]
    simp [ih (List.nodup_cons.mp h).2]

theorem range_toFinset (n : ℕ) : (List.range n).toFinset = Finset.range n := by
  ext x
  simp

theorem uniqueLabels_toFinset (pts : List WPoint) (eps : ℚ) :
    (uniqueLabels pts eps).toFinset =
      (Finset.range pts.length).image (labels pts eps) := by
  ext x
  simp [uniqueLabels]

theorem memberIdx_toFinset (pts : List WPoint) (eps : ℚ) (lab : ℕ) :
    (memberIdx pts eps lab).toFinset =
      (Finset.range pts.length).filter fun i => labels pts eps i = lab := by
  ext x
  simp [memberIdx]

theorem pget_range_map (pts : List WPoint) :
    (List.range pts.length).map (pget pts) = pts := by
  apply List.ext_getElem
  · simp
  · intro i h1 h2
    simp only [List.getElem_map, List.getElem_range]
    exact List.getD_eq_getElem pts _ h2

theorem list_sum_one (l : List ℕ) : (l.map fun _ => (1 : ℚ)).sum = (l.length : ℚ) := by
  induction l with
  | nil => simp
  | cons a t ih => simp [ih]; ring

theorem clusterValue_memberList (pts : List WPoint) (eps : ℚ) (weight : Bool) (lab : ℕ) :
    clusterValue weight (memberList pts eps lab) =
      ((memberIdx pts eps lab).map fun i =>
        if weight then (pget pts i).w else (1 : ℚ)).sum := by
  cases weight with
  | true =>
    simp only [clusterValue, memberList, List.map_map, if_true]
    rfl
  | false => simp [clusterValue, memberList, list_sum_one]

/-- C7 engine: cluster aggregates add up to the total count (count mode) or
the total weight (weight mode). -/
theorem sum_clusterValues (pts : List WPoint) (eps : ℚ) (weight : Bool) :
    ((clustersOf pts eps weight).map Prod.snd).sum =
      if weight then (pts.map WPoint.w).sum else (pts.length : ℚ) := by
  have hg : ∀ lab, clusterValue weight (memberList pts eps lab) =
      ∑ i in (Finset.range pts.length).filter (fun i => labels pts eps i = lab),
        (if weight then (pget pts i).w else (1 : ℚ)) := by
    intro lab
    rw [clusterValue_memberList pts eps weight lab,
      ← sum_toFinset_of_nodup _ _ (nodup_memberIdx pts eps lab), memberIdx_toFinset]
  have h2 : ((clustersOf pts eps weight).map Prod.snd).sum =
      ∑ lab in (Finset.range pts.length).image (labels pts eps),
        ∑ i in (Finset.range pts.length).filter (fun i => labels pts eps i = lab),
          (if weight then (pget pts i).w else (1 : ℚ)) := by
    unfold clustersOf
    rw [List.map_map, ← sum_toFinset_of_nodup _ _ (nodup_uniqueLabels pts eps),
      uniqueLabels_toFinset]
    apply Finset.sum_congr rfl
    intro lab _
    exact hg lab
  rw [h2, Finset.sum_fiberwise_of_maps_to fun i hi => Finset.mem_image_of_mem _ hi]
  cases weight with
  | true =>
    simp only [if_true]
    rw [← range_toFinset, sum_toFinset_of_nodup _ _ (List.nodup_range _)]
    have hmaps : ((List.range pts.length).map fun i => (pget pts i).w) =
        pts.map WPoint.w := by
      rw [show (fun i => (pget pts i).w) = (WPoint.w ∘ pget pts) from rfl,
        ← List.map_map, pget_range_map]
    rw [hmaps]
  | false =>
    simp only [Bool.false_eq_true, if_false]
    rw [Finset.sum_const, Finset.card_range]
    simp

theorem foldl_max_mem (a : ℚ) (l : List ℚ) : l.foldl max a ∈ a :: l := by
  induction l generalizing a with
  | nil => simp
  | cons b t ih =>
    simp only [List.foldl_cons]
    have h := ih (max a b)
    rcases List.mem_cons.mp h with h1 | h1
    · rcases max_choice a b with h2 | h2 <;> rw [h1, h2] <;> simp
    · simp [h1]

theorem le_foldl_max (a : ℚ) (l : List ℚ) : ∀ x ∈ a :: l, x ≤ l.foldl max a := by
  induction l generalizing a with
  | nil =>
    intro x hx
    simp only [List.mem_singleton] at hx
    simp [hx]
  | cons b t ih =>
    intro x hx
    simp only [List.foldl_cons]
    have ih' := ih (max a b)
    rcases List.mem_cons.mp hx with h1 | h1
    · rw [h1]
      exact le_trans (le_max_left a b) (ih' (max a b) (by simp))
    · rcases List.mem_cons.mp h1 with h2 | h2
      · rw [h2]
        exact le_trans (le_max_right a b) (ih' (max a b) (by simp))
      · exact ih' x (by simp [h2])

theorem foldl_min_mem (a : ℚ) (l : List ℚ) : l.foldl min a ∈ a :: l := by
  induction l generalizing a with
  | nil => simp
  | cons b t ih =>
    simp only [List.foldl_cons]
    have h := ih (min a b)
    rcases List.mem_cons.mp h with h1 | h1
    · rcases min_choice a b with h2 | h2 <;> rw [h1, h2] <;> simp
    · simp [h1]

theorem foldl_min_le (a : ℚ) (l : List ℚ) : ∀ x ∈ a :: l, l.foldl min a ≤ x := by
  induction l generalizing a with
  | nil =>
    intro x hx
    simp only [List.mem_singleton] at hx
    simp [hx]
  | cons b t ih =>
    intro x hx
    simp only [List.foldl_cons]
    have ih' := ih (min a b)
    rcases List.mem_cons.mp hx with h1 | h1
    · rw [h1]
      exact le_trans (ih' (min a b) (by simp)) (min_le_left a b)
    · rcases List.mem_cons.mp h1 with h2 | h2
      · rw [h2]
        exact le_trans (ih' (min a b) (by simp)) (min_le_right a b)
      · exact ih' x (by simp [h2])

theorem clustersOf_ne_nil (pts : List WPoint) (eps : ℚ) (weight : Bool) (h : pts ≠ []) :
    clustersOf pts eps weight ≠ [] := by
  unfold clustersOf
  simp only [ne_eq, List.map_eq_nil_iff]
  exact uniqueLabels_ne_nil pts eps h

theorem cluster_coordinates_eq (pts : List WPoint) (eps : ℚ) (weight : Bool)
    (c : (ℚ × ℚ) × ℚ) (cs : List ((ℚ × ℚ) × ℚ)) (h : clustersOf pts eps weight = c :: cs) :
    cluster_coordinates pts eps weight =
      Except.ok (c :: cs, (cs.map Prod.snd).foldl max c.2, (cs.map Prod.snd).foldl min c.2) := by
  unfold cluster_coordinates
  rw [h]

theorem cluster_coordinates_nil_iff (pts : List WPoint) (eps : ℚ) (weight : Bool) :
    (∃ e, cluster_coordinates pts eps weight = Except.error e) ↔ pts = [] := by
  constructor
  · intro ⟨e, he⟩
    by_contra hne
    obtain ⟨c, cs, hcs⟩ := List.exists_cons_of_ne_nil (clustersOf_ne_nil pts eps weight hne)
    rw [cluster_coordinates_eq pts eps weight c cs hcs] at he
    exact Except.noConfusion he
  · intro h
    subst h
    exact ⟨_, rfl⟩

theorem pget_coords_congr (pts qts : List WPoint)
    (h : qts.map coords = pts.map coords) (i : ℕ) :
    coords (pget qts i) = coords (pget pts i) := by
  have h1 : (qts.map coords)[i]? = (pts.map coords)[i]? := by rw [h]
  rw [List.getElem?_map, List.getElem?_map] at h1
  unfold pget
  rw [List.getD_eq_getElem?_getD, List.getD_eq_getElem?_getD]
  cases hq : qts[i]? with
  | none =>
    cases hp : pts[i]? with
    | none => rfl
    | some p => rw [hq, hp] at h1; simp at h1
  | some q =>
    cases hp : pts[i]? with
    | none => rw [hq, hp] at h1; simp at h1
    | some p =>
      rw [hq, hp] at h1
      simp only [Option.map_some', Option.some.injEq] at h1
      simpa using h1

theorem length_congr_of_coords (pts qts : List WPoint)
    (h : qts.map coords = pts.map coords) : qts.length = pts.length := by
  simpa using congrArg List.length h

theorem adjB_congr (pts qts : List WPoint) (eps : ℚ)
    (h : qts.map coords = pts.map coords) : adjB qts eps = adjB pts eps := by
  funext i j
  unfold adjB
  rw [pget_coords_congr pts qts h i, pget_coords_congr pts qts h j]

theorem labels_congr (pts qts : List WPoint) (eps : ℚ)
    (h : qts.map coords = pts.map coords) : labels qts eps = labels pts eps := by
  have hlen := length_congr_of_coords pts qts h
  have hexp : expand qts eps = expand pts eps := by
    funext s
    unfold expand
    rw [adjB_congr pts qts eps h, hlen]
  funext i
  unfold labels
  apply min'_congr
  unfold reachSet
  rw [hexp, hlen]

theorem memberIdx_congr (pts qts : List WPoint) (eps : ℚ)
    (h : qts.map coords = pts.map coords) (lab : ℕ) :
    memberIdx qts eps lab = memberIdx pts eps lab := by
  unfold memberIdx
  rw [labels_congr pts qts eps h, length_congr_of_coords pts qts h]

theorem uniqueLabels_congr (pts qts : List WPoint) (eps : ℚ)
    (h : qts.map coords = pts.map coords) :
    uniqueLabels qts eps = uniqueLabels pts eps := by
  unfold uniqueLabels
  rw [labels_congr pts qts eps h, length_congr_of_coords pts qts h]

theorem clusterCenter_congr (pts qts : List WPoint) (eps : ℚ)
    (h : qts.map coords = pts.map coords) (lab : ℕ) :
    clusterCenter (memberList qts eps lab) = clusterCenter (memberList pts eps lab) := by
  unfold clusterCenter memberList
  rw [memberIdx_congr pts qts eps h lab]
  have hlon : ((memberIdx pts eps lab).map (pget qts)).map WPoint.lon =
      ((memberIdx pts eps lab).map (pget pts)).map WPoint.lon := by
    rw [List.map_map, List.map_map]
    apply List.map_congr_left
    intro i _
    exact congrArg Prod.fst (pget_coords_congr pts qts h i)
  have hlat : ((memberIdx pts eps lab).map (pget qts)).map WPoint.lat =
      ((memberIdx pts eps lab).map (pget pts)).map WPoint.lat := by
    rw [List.map_map, List.map_map]
    apply List.map_congr_left
    intro i _
    exact congrArg Prod.snd (pget_coords_congr pts qts h i)
  rw [hlon, hlat]
  simp

/-- Replace the weight column of each point, keeping the coordinates. -/
def reweight (pts : List WPoint) (ws : List ℚ) : List WPoint :=
  pts.zipWith (fun p x => ⟨p.lon, p.lat, x⟩) ws

theorem reweight_coords (pts : List WPoint) (ws : List ℚ)
    (h : ws.length = pts.length) :
    (reweight pts ws).map coords = pts.map coords := by
  induction pts generalizing ws with
  | nil => simp [reweight]
  | cons p t ih =>
    cases ws with
    | nil => simp at h
    | cons x xs =>
      simp only [reweight, List.zipWith_cons_cons, List.map_cons] at *
      rw [ih xs (by simpa using h)]
      rfl

/-- The skip condition of the geocoding loop in `main`: the lookup came back
with a missing longitude or latitude. -/
def failsGeo (reader : Reader) (rec : Record) : Bool :=
  (reader rec.ip).1.isNone || (reader rec.ip).2.isNone

/-- C3 engine: with well-formed bandwidths, the point-building loop succeeds,
producing one diagnostic per failing record (in order) and one point per
resolving record (in order). -/
theorem buildPoints_ok (reader : Reader) (recs : List Record)
    (hbw : ∀ rec ∈ recs, rec.bandwidth ≠ [] ∧ ∀ c ∈ rec.bandwidth, c.isDigit = true) :
    buildPoints reader recs = Except.ok
      ((recs.filter (failsGeo reader)).map fun rec => mkDiag rec.ip,
       (recs.filter fun rec => !failsGeo reader rec).map fun rec =>
         ⟨((reader rec.ip).1).getD 0, ((reader rec.ip).2).getD 0,
           (natOfDigits rec.bandwidth : ℚ)⟩) := by
  induction recs with
  | nil => rfl
  | cons rec rest ih =>
    have ih' := ih fun r hr => hbw r (by simp [hr])
    have hb := hbw rec (by simp)
    rcases hgeo : reader rec.ip with ⟨o1, o2⟩
    cases o1 with
    | some lo =>
      cases o2 with
      | some la =>
        have hfail : failsGeo reader rec = false := by simp [failsGeo, hgeo]
        have hpy : pyInt rec.bandwidth = Except.ok (natOfDigits rec.bandwidth) := by
          unfold pyInt
          rw [if_pos hb]
        simp [buildPoints, geo_ip, hgeo, hpy, ih', hfail, List.filter_cons]
      | none =>
        have hfail : failsGeo reader rec = true := by simp [failsGeo, hgeo]
        simp [buildPoints, geo_ip, hgeo, ih', hfail, List.filter_cons]
    | none =>
      have hfail : failsGeo reader rec = true := by simp [failsGeo, hgeo]
      cases o2 with
      | some la =>
        simp [buildPoints, geo_ip, hgeo, ih', hfail, List.filter_cons]
      | none =>
        simp [buildPoints, geo_ip, hgeo, ih', hfail, List.filter_cons]

/-- C4 engine: when every record fails geocoding, the loop succeeds with a
diagnostic per record and no points at all. -/
theorem buildPoints_allfail (reader : Reader) (recs : List Record)
    (h : ∀ rec ∈ recs, failsGeo reader rec = true) :
    buildPoints reader recs = Except.ok (recs.map fun rec => mkDiag rec.ip, []) := by
  induction recs with
  | nil => rfl
  | cons rec rest ih =>
    have ih' := ih fun r hr => h r (by simp [hr])
    have hfail := h rec (by simp)
    rcases hgeo : reader rec.ip with ⟨o1, o2⟩
    cases o1 with
    | some lo =>
      cases o2 with
      | some la => simp [failsGeo, hgeo] at hfail
      | none => simp [buildPoints, geo_ip, hgeo, ih']
    | none =>
      cases o2 with
      | some la => simp [buildPoints, geo_ip, hgeo, ih']
      | none => simp [buildPoints, geo_ip, hgeo, ih']

/-- The neighborhood relation on point values: both occur in the input and
their coordinates are within `eps` of each other. -/
def PtRel (pts : List WPoint) (eps : ℚ) (p q : WPoint) : Prop :=
  p ∈ pts ∧ q ∈ pts ∧ distSq (coords p) (coords q) ≤ eps ^ 2

/-- Connectivity between point values through chains inside the input. -/
def PtReach (pts : List WPoint) (eps : ℚ) : WPoint → WPoint → Prop :=
  Relation.ReflTransGen (PtRel pts eps)

theorem pget_mem (pts : List WPoint) (i : ℕ) (hi : i < pts.length) :
    pget pts i ∈ pts := by
  unfold pget
  rw [List.getD_eq_getElem pts _ hi]
  exact List.getElem_mem hi

theorem exists_pget (pts : List WPoint) (p : WPoint) (hp : p ∈ pts) :
    ∃ i, i < pts.length ∧ pget pts i = p := by
  obtain ⟨i, hi, he⟩ := List.getElem_of_mem hp
  refine ⟨i, hi, ?_⟩
  unfold pget
  rw [List.getD_eq_getElem pts _ hi, he]

theorem reach_to_ptReach (pts : List WPoint) (eps : ℚ) (i j : ℕ)
    (h : Reach pts eps i j) : PtReach pts eps (pget pts i) (pget pts j) := by
  induction h with
  | refl => exact Relation.ReflTransGen.refl
  | tail hab hbc ih =>
    refine ih.tail ⟨pget_mem pts _ hbc.1, pget_mem pts _ hbc.2.1, ?_⟩
    have h2 := hbc.2.2
    unfold adjB at h2
    exact of_decide_eq_true h2

theorem ptReach_to_reach (pts : List WPoint) (eps : ℚ) (p q : WPoint)
    (h : PtReach pts eps p q) :
    ∀ i j, i < pts.length → j < pts.length → pget pts i = p → pget pts j = q →
      Reach pts eps i j := by
  induction h with
  | refl =>
    intro i j hi hj hpi hpj
    refine Relation.ReflTransGen.single ⟨hi, hj, ?_⟩
    unfold adjB
    rw [decide_eq_true_eq]
    have hij : pget pts i = pget pts j := by rw [hpi, hpj]
    rw [hij]
    have h0 : distSq (coords (pget pts j)) (coords (pget pts j)) = 0 := by
      unfold distSq
      ring
    rw [h0]
    positivity
  | tail hab hbc ih =>
    intro i j hi hj hpi hpj
    obtain ⟨k, hk, hke⟩ := exists_pget pts _ hbc.1
    refine (ih i k hi hk hpi hke).tail ⟨hk, hj, ?_⟩
    unfold adjB
    rw [decide_eq_true_eq, hke, hpj]
    exact hbc.2.2

theorem ptRel_congr (pts qts : List WPoint) (eps : ℚ) (hperm : qts.Perm pts) :
    PtRel qts eps = PtRel pts eps := by
  funext p q
  unfold PtRel
  simp [hperm.mem_iff]

theorem ptReach_congr (pts qts : List WPoint) (eps : ℚ) (hperm : qts.Perm pts) :
    PtReach qts eps = PtReach pts eps := by
  unfold PtReach
  rw [ptRel_congr pts qts eps hperm]

theorem count_map_eq_countP (f : ℕ → WPoint) (l : List ℕ) (x : WPoint) :
    (l.map f).count x = l.countP fun a => decide (f a = x) := by
  induction l with
  | nil => rfl
  | cons a t ih =>
    rw [List.map_cons, List.count_cons, List.countP_cons, ih]
    simp [beq_iff_eq]

/-- The member list of the cluster of row `i`, counted at a point value `x`
connected to row `i`'s point: every occurrence of `x` in the input belongs to
this cluster. -/
theorem count_memberList_of (pts : List WPoint) (eps : ℚ) (i : ℕ)
    (hi : i < pts.length) (x : WPoint)
    (hx : PtReach pts eps (pget pts i) x) :
    (memberList pts eps (labels pts eps i)).count x = pts.count x := by
  unfold memberList memberIdx
  rw [count_map_eq_countP, List.countP_filter]
  have hpts : pts.count x = ((List.range pts.length).map (pget pts)).count x := by
    rw [pget_range_map]
  rw [hpts, count_map_eq_countP]
  apply List.countP_congr
  intro a ha
  rw [List.mem_range] at ha
  simp only [Bool.and_eq_true, decide_eq_true_eq]
  constructor
  · intro h1
    exact h1.1
  · intro h1
    refine ⟨h1, ?_⟩
    have hra : Reach pts eps a i := by
      apply ptReach_to_reach pts eps (pget pts a) (pget pts i) _ a i ha hi rfl rfl
      rw [h1]
      exact Relation.ReflTransGen.symmetric
        (fun _ _ hr => ⟨hr.2.1, hr.1, by rw [distSq_comm]; exact hr.2.2⟩) hx
    exact (labels_eq_iff pts eps a i ha hi).mpr hra

/-- The member list of the cluster of row `i`, counted at a point value not
connected to row `i`'s point: no such point is in the cluster. -/
theorem count_memberList_not (pts : List WPoint) (eps : ℚ) (i : ℕ)
    (hi : i < pts.length) (x : WPoint)
    (hx : ¬ PtReach pts eps (pget pts i) x) :
    (memberList pts eps (labels pts eps i)).count x = 0 := by
  unfold memberList memberIdx
  rw [count_map_eq_countP, List.countP_filter, List.countP_eq_zero]
  intro a ha
  rw [List.mem_range] at ha
  simp only [Bool.and_eq_true, decide_eq_true_eq, not_and]
  intro hax hlab
  apply hx
  have hra : Reach pts eps i a :=
    reach_symm pts eps a i ((labels_eq_iff pts eps a i ha hi).mp hlab)
  have := reach_to_ptReach pts eps i a hra
  rw [hax] at this
  exact this

/-- The partition produced by the clustering step, as a set of clusters, each
cluster being the multiset of its member points. -/
def clustersFinsetD (pts : List WPoint) (eps : ℚ) : Finset (Multiset WPoint) :=
  (uniqueLabels pts eps).toFinset.image fun lab =>
    ((memberList pts eps lab : List WPoint) : Multiset WPoint)

theorem mem_clustersFinsetD (pts : List WPoint) (eps : ℚ) (C : Multiset WPoint) :
    C ∈ clustersFinsetD pts eps ↔
      ∃ i, i < pts.length ∧
        ((memberList pts eps (labels pts eps i) : List WPoint) : Multiset WPoint) = C := by
  unfold clustersFinsetD
  simp only [Finset.mem_image, List.mem_toFinset, mem_uniqueLabels_iff]
  constructor
  · rintro ⟨lab, ⟨i, hi, hl⟩, hC⟩
    exact ⟨i, hi, by rw [hl]; exact hC⟩
  · rintro ⟨i, hi, hC⟩
    exact ⟨labels pts eps i, ⟨i, hi, rfl⟩, hC⟩

theorem clustersFinsetD_subset (pts qts : List WPoint) (eps : ℚ)
    (hperm : qts.Perm pts) :
    clustersFinsetD qts eps ⊆ clustersFinsetD pts eps := by
  intro C hC
  rw [mem_clustersFinsetD] at hC ⊢
  obtain ⟨i, hi, hC⟩ := hC
  have hpmem : pget qts i ∈ pts := hperm.mem_iff.mp (pget_mem qts i hi)
  obtain ⟨j, hj, hje⟩ := exists_pget pts _ hpmem
  refine ⟨j, hj, ?_⟩
  rw [← hC]
  rw [Multiset.coe_eq_coe]
  rw [List.perm_iff_count]
  intro x
  by_cases hx : PtReach pts eps (pget pts j) x
  · have hx' : PtReach qts eps (pget qts i) x := by
      rw [ptReach_congr pts qts eps hperm, ← hje]
      exact hx
    rw [count_memberList_of pts eps j hj x hx, count_memberList_of qts eps i hi x hx',
      List.perm_iff_count.mp hperm x]
  · have hx' : ¬ PtReach qts eps (pget qts i) x := by
      rw [ptReach_congr pts qts eps hperm, ← hje]
      exact hx
    rw [count_memberList_not pts eps j hj x hx, count_memberList_not qts eps i hi x hx']

/-- C1 order-invariance engine: permuting the input rows leaves the partition
(as a set of member-point multisets) unchanged. -/
theorem clustersFinsetD_perm (pts qts : List WPoint) (eps : ℚ)
    (hperm : qts.Perm pts) :
    clustersFinsetD qts eps = clustersFinsetD pts eps :=
  subset_antisymm (clustersFinsetD_subset pts qts eps hperm)
    (clustersFinsetD_subset qts pts eps hperm.symm)

theorem adj_eq_rel (pts : List WPoint) (eps : ℚ) :
    Adj pts eps = fun a b => a < pts.length ∧ b < pts.length ∧
      distSq (coords (pget pts a)) (coords (pget pts b)) ≤ eps ^ 2 := by
  funext a b
  unfold Adj adjB
  simp [decide_eq_true_eq]

/-- C1: for every finite weighted point set and positive threshold, the
DBSCAN(min_samples=1) partition equals the connected components of the graph
joining points whose (longitude, latitude) distance is at most the
threshold: (a) two rows share a cluster label exactly when they are connected
in that graph; (b) every row lies in exactly one cluster (no noise); (c) the
partition, as the set of member multisets, is invariant under permutations of
the input; (d) changing only the weight column changes neither the labels nor
the clusters' index sets. -/
theorem C1_cluster_partition (pts : List WPoint) (eps : ℚ) (heps : 0 < eps) :
    (∀ i j, i < pts.length → j < pts.length →
      (labels pts eps i = labels pts eps j ↔
        Relation.ReflTransGen
          (fun a b => a < pts.length ∧ b < pts.length ∧
            distSq (coords (pget pts a)) (coords (pget pts b)) ≤ eps ^ 2) i j))
    ∧ (∀ i, i < pts.length →
        labels pts eps i ∈ uniqueLabels pts eps ∧
        i ∈ memberIdx pts eps (labels pts eps i) ∧
        ∀ lab, i ∈ memberIdx pts eps lab → lab = labels pts eps i)
    ∧ (∀ qts : List WPoint, qts.Perm pts →
        clustersFinsetD qts eps = clustersFinsetD pts eps)
    ∧ (∀ ws : List ℚ, ws.length = pts.length →
        labels (reweight pts ws) eps = labels pts eps ∧
        ∀ lab, memberIdx (reweight pts ws) eps lab = memberIdx pts eps lab) := by
  refine ⟨?_, ?_, ?_, ?_⟩
  · intro i j hi hj
    rw [← adj_eq_rel pts eps]
    exact labels_eq_iff pts eps i j hi hj
  · intro i hi
    refine ⟨(mem_uniqueLabels_iff pts eps _).mpr ⟨i, hi, rfl⟩,
      (mem_memberIdx_iff pts eps _ i).mpr ⟨hi, rfl⟩, ?_⟩
    intro lab hmem
    exact ((mem_memberIdx_iff pts eps lab i).mp hmem).2.symm
  · intro qts hperm
    exact clustersFinsetD_perm pts qts eps hperm
  · intro ws hws
    have hco := reweight_coords pts ws hws
    exact ⟨labels_congr pts (reweight pts ws) eps hco,
      fun lab => memberIdx_congr pts (reweight pts ws) eps hco lab⟩

/-- C2: a document of well-formed relay blocks (optional `a` and `pr` lines
present or absent in any combination) yields exactly one record per block, in
order, with every mandatory field populated from the block and the bandwidth
field equal to the digit string after `Bandwidth=`, parsing to its integer
value. -/
theorem C2_extractor_wellformed (bs : List Block) (h : ∀ b ∈ bs, WFBlock b) :
    get_details_from_consensus (bs.map render).flatten = bs.map recordOf ∧
    ∀ b ∈ bs,
      (recordOf b).nickname = b.nickname ∧ (recordOf b).rid = b.rid ∧
      (recordOf b).digest = b.digest ∧
      (recordOf b).publication = b.pub1 ++ ' ' :: b.pub2 ∧
      (recordOf b).ip = b.ip ∧ (recordOf b).orport = b.orport ∧
      (recordOf b).dirport = b.dirport ∧ (recordOf b).ipv6 = b.ipv6 ∧
      (recordOf b).flags = b.flags ∧ (recordOf b).version = b.version ∧
      (recordOf b).ports = pLine b ∧
      (recordOf b).nickname ≠ [] ∧ (recordOf b).ip ≠ [] ∧
      (recordOf b).bandwidth = b.bw ∧
      pyInt (recordOf b).bandwidth = Except.ok (natOfDigits b.bw) := by
  constructor
  · exact scan_renders bs h
  · intro b hb
    obtain ⟨h1, -, -, -, -, h6, -, -, -, -, -, -, -, -, h15, h16, -⟩ := h b hb
    refine ⟨rfl, rfl, rfl, rfl, rfl, rfl, rfl, rfl, rfl, rfl, rfl, h1.1, h6.1, rfl, ?_⟩
    unfold pyInt
    rw [if_pos ⟨h15, h16⟩]
    rfl

/-- C3: every record whose geocoder lookup fails (missing location data, per
the spec's adapter interface under which invalid IPs and adapter errors
surface as null location data) produces a diagnostic naming the offending IP
and is dropped from the weighted-point sequence, while the loop completes
over the whole record list without aborting (given well-formed bandwidths,
which the later `int()` call of surviving records needs). -/
theorem C3_geocode_failure_nonfatal (reader : Reader) (recs : List Record)
    (hbw : ∀ rec ∈ recs, rec.bandwidth ≠ [] ∧ ∀ c ∈ rec.bandwidth, c.isDigit = true) :
    ∃ ds ps, buildPoints reader recs = Except.ok (ds, ps) ∧
      ds = (recs.filter (failsGeo reader)).map (fun rec => mkDiag rec.ip) ∧
      ps = (recs.filter fun rec => !failsGeo reader rec).map (fun rec =>
        ⟨((reader rec.ip).1).getD 0, ((reader rec.ip).2).getD 0,
          (natOfDigits rec.bandwidth : ℚ)⟩) ∧
      (∀ rec ∈ recs, failsGeo reader rec = true → mkDiag rec.ip ∈ ds) ∧
      (∀ ip, ∃ pre suf, mkDiag ip = pre ++ (ip ++ suf)) := by
  refine ⟨_, _, buildPoints_ok reader recs hbw, rfl, rfl, ?_, ?_⟩
  · intro rec hrec hfail
    exact List.mem_map_of_mem _ (List.mem_filter.mpr ⟨hrec, hfail⟩)
  · intro ip
    exact ⟨"Could not geocode the following IP: ".toList, ". Skipping it".toList, by
      unfold mkDiag
      rw [List.append_assoc]⟩

/-- C4: if every parsed relay fails geocoding, so that no weighted point
remains, the pipeline terminates with an error (the clustering stage raises
on the empty array) and hands nothing to the rendering stage. -/
theorem C4_empty_result_fatal (doc : List (List Char)) (reader : Reader) (eps : ℚ)
    (weight : Bool)
    (h : ∀ rec ∈ get_details_from_consensus doc, failsGeo reader rec = true) :
    ∃ e, mainRun doc reader eps weight = Except.error e := by
  refine ⟨"zero-size array to reduction operation", ?_⟩
  unfold mainRun
  rw [buildPoints_allfail reader _ h]
  rfl

/-- C5: for non-empty input the clustering step succeeds and reports a
maximum and minimum that are respectively the largest and smallest
per-cluster aggregate, each achieved by an actual cluster. -/
theorem C5_minmax (pts : List WPoint) (eps : ℚ) (weight : Bool) (h : pts ≠ []) :
    ∃ cs vmax vmin, cluster_coordinates pts eps weight = Except.ok (cs, vmax, vmin) ∧
      cs = clustersOf pts eps weight ∧
      vmax ∈ cs.map Prod.snd ∧ vmin ∈ cs.map Prod.snd ∧
      ∀ v ∈ cs.map Prod.snd, vmin ≤ v ∧ v ≤ vmax := by
  obtain ⟨c, cs', hcs⟩ := List.exists_cons_of_ne_nil (clustersOf_ne_nil pts eps weight h)
  refine ⟨c :: cs', (cs'.map Prod.snd).foldl max c.2, (cs'.map Prod.snd).foldl min c.2,
    cluster_coordinates_eq pts eps weight c cs' hcs, hcs.symm, ?_, ?_, ?_⟩
  · simpa using foldl_max_mem c.2 (cs'.map Prod.snd)
  · simpa using foldl_min_mem c.2 (cs'.map Prod.snd)
  · intro v hv
    rw [List.map_cons] at hv
    exact ⟨foldl_min_le c.2 (cs'.map Prod.snd) v hv, le_foldl_max c.2 (cs'.map Prod.snd) v hv⟩

/-- C6: every produced cluster's center is the unweighted arithmetic mean of
its members' (longitude, latitude) pairs; neither the aggregation-mode flag
nor the weight values influence any center. -/
theorem C6_centers_unweighted (pts : List WPoint) (eps : ℚ) (weight : Bool) :
    (∀ cl ∈ clustersOf pts eps weight, ∃ lab ∈ uniqueLabels pts eps,
        memberList pts eps lab ≠ [] ∧
        cl.1 = (((memberList pts eps lab).map WPoint.lon).sum /
                  ((memberList pts eps lab).length : ℚ),
                ((memberList pts eps lab).map WPoint.lat).sum /
                  ((memberList pts eps lab).length : ℚ)))
    ∧ ((clustersOf pts eps true).map Prod.fst = (clustersOf pts eps false).map Prod.fst)
    ∧ (∀ ws : List ℚ, ws.length = pts.length →
        (clustersOf (reweight pts ws) eps weight).map Prod.fst =
          (clustersOf pts eps weight).map Prod.fst) := by
  refine ⟨?_, ?_, ?_⟩
  · intro cl hcl
    unfold clustersOf at hcl
    obtain ⟨lab, hlab, hcl⟩ := List.mem_map.mp hcl
    exact ⟨lab, hlab, memberList_ne_nil pts eps lab hlab, by rw [← hcl]; rfl⟩
  · unfold clustersOf
    rw [List.map_map, List.map_map]
    rfl
  · intro ws hws
    have hco := reweight_coords pts ws hws
    unfold clustersOf
    rw [List.map_map, List.map_map, uniqueLabels_congr pts _ eps hco]
    apply List.map_congr_left
    intro lab _
    simp only [Function.comp_apply]
    exact clusterCenter_congr pts _ eps hco lab

/-- C7: the cluster aggregates sum to the number of input points in count
mode and to the total input weight in weight mode. -/
theorem C7_totals (pts : List WPoint) (eps : ℚ) :
    ((clustersOf pts eps false).map Prod.snd).sum = (pts.length : ℚ) ∧
    ((clustersOf pts eps true).map Prod.snd).sum = (pts.map WPoint.w).sum := by
  constructor
  · simpa using sum_clusterValues pts eps false
  · simpa using sum_clusterValues pts eps true

/-- C8: a block missing any one mandatory line yields no record, and the
surrounding well-formed blocks are extracted exactly as they would be with
the malformed block absent. -/
theorem C8_malformed_block_skipped (k : Mand) (b1 bm b2 : Block)
    (h1 : WFBlock b1) (hm : WFBlock bm) (h2 : WFBlock b2) :
    get_details_from_consensus (render b1 ++ (renderDrop k bm ++ render b2)) =
      [recordOf b1, recordOf b2] ∧
    get_details_from_consensus (render b1 ++ render b2) =
      [recordOf b1, recordOf b2] := by
  constructor
  · unfold get_details_from_consensus
    rw [scan_render b1 h1]
    have hd := scan_renderDrop k bm b2 hm h2 []
    rw [List.append_nil] at hd
    rw [hd]
    rfl
  · unfold get_details_from_consensus
    rw [scan_render b1 h1]
    have hr := scan_render b2 h2 []
    rw [List.append_nil] at hr
    rw [hr]
    rfl

/-- C10: in count mode every cluster aggregate is a positive integer (every
cluster has at least one member), and for non-empty input the reported
minimum is at least 1 — in particular strictly positive, as the downstream
logarithmic color normalization needs. -/
theorem C10_count_values_positive (pts : List WPoint) (eps : ℚ) (h : pts ≠ []) :
    (∀ v ∈ (clustersOf pts eps false).map Prod.snd,
      ∃ k : ℕ, v = (k : ℚ) ∧ 1 ≤ k) ∧
    ∃ cs vmax vmin, cluster_coordinates pts eps false = Except.ok (cs, vmax, vmin) ∧
      1 ≤ vmin ∧ 0 < vmin := by
  have hval : ∀ v ∈ (clustersOf pts eps false).map Prod.snd,
      ∃ k : ℕ, v = (k : ℚ) ∧ 1 ≤ k := by
    intro v hv
    unfold clustersOf at hv
    rw [List.map_map] at hv
    obtain ⟨lab, hlab, hveq⟩ := List.mem_map.mp hv
    refine ⟨(memberList pts eps lab).length, ?_, ?_⟩
    · rw [← hveq]
      simp [clusterValue]
    · have := memberList_ne_nil pts eps lab hlab
      exact List.length_pos.mpr this
  refine ⟨hval, ?_⟩
  obtain ⟨c, cs', hcs⟩ := List.exists_cons_of_ne_nil (clustersOf_ne_nil pts eps false h)
  refine ⟨c :: cs', (cs'.map Prod.snd).foldl max c.2, (cs'.map Prod.snd).foldl min c.2,
    cluster_coordinates_eq pts eps false c cs' hcs, ?_, ?_⟩
  · have hmem : (cs'.map Prod.snd).foldl min c.2 ∈ (clustersOf pts eps false).map Prod.snd := by
      rw [hcs, List.map_cons]
      exact foldl_min_mem c.2 (cs'.map Prod.snd)
    obtain ⟨k, hk, hk1⟩ := hval _ hmem
    rw [hk]
    exact_mod_cast hk1
  · have hmem : (cs'.map Prod.snd).foldl min c.2 ∈ (clustersOf pts eps false).map Prod.snd := by
      rw [hcs, List.map_cons]
      exact foldl_min_mem c.2 (cs'.map Prod.snd)
    obtain ⟨k, hk, hk1⟩ := hval _ hmem
    rw [hk]
    exact_mod_cast Nat.lt_of_lt_of_le Nat.zero_lt_one hk1

theorem takeDigits_digits (l : List Char) : ∀ c ∈ (takeDigits l).1, c.isDigit = true := by
  induction l with
  | nil => simp [takeDigits]
  | cons a t ih =>
    by_cases hd : a.isDigit
    · simp only [takeDigits, hd, if_true]
      intro c hc
      rcases List.mem_cons.mp hc with h | h
      · rw [h]; exact hd
      · exact ih c h
    · simp [takeDigits, hd]

theorem matchW_digits (l bw : List Char) (h : matchW l = some bw) :
    ∀ c ∈ bw, c.isDigit = true := by
  unfold matchW at h
  cases hs : stripL wPre l with
  | none => rw [hs] at h; simp at h
  | some rest =>
    rw [hs] at h
    simp only [Option.map_some', Option.some.injEq] at h
    rw [← h]
    exact takeDigits_digits rest

theorem finishW_digits (rm : RMain) (ipv6 : Option (List Char)) (flags ver : List Char)
    (ls : List (List Char)) (r : Record) (rest : List (List Char))
    (h : finishW rm ipv6 flags ver ls = some (r, rest)) :
    ∀ c ∈ r.bandwidth, c.isDigit = true := by
  unfold finishW at h
  split at h
  case h_1 lw lp tl =>
    split at h
    case h_1 bw hw =>
      split at h
      · cases h with
        | refl => exact matchW_digits lw bw hw
      · exact absurd h (by simp)
    case h_2 => exact absurd h (by simp)
  case h_2 => exact absurd h (by simp)

theorem afterV_digits (rm : RMain) (ipv6 : Option (List Char)) (flags ver : List Char)
    (ls : List (List Char)) (r : Record) (rest : List (List Char))
    (h : afterV rm ipv6 flags ver ls = some (r, rest)) :
    ∀ c ∈ r.bandwidth, c.isDigit = true := by
  unfold afterV at h
  split at h
  case h_1 lpr tl =>
    split at h
    · split at h
      case isTrue.h_1 out heq =>
        cases h with
        | refl => exact finishW_digits rm ipv6 flags ver tl r rest heq
      case isTrue.h_2 => exact finishW_digits rm ipv6 flags ver (lpr :: tl) r rest h
    · exact finishW_digits rm ipv6 flags ver (lpr :: tl) r rest h
  case h_2 => exact absurd h (by simp)

theorem afterSV_digits (rm : RMain) (ipv6 : Option (List Char))
    (ls : List (List Char)) (r : Record) (rest : List (List Char))
    (h : afterSV rm ipv6 ls = some (r, rest)) :
    ∀ c ∈ r.bandwidth, c.isDigit = true := by
  unfold afterSV at h
  split at h
  case h_1 l1 l2 tl =>
    split at h
    · exact absurd h (by simp)
    · split at h
      · exact absurd h (by simp)
      · exact afterV_digits rm ipv6 _ _ tl r rest h
  case h_2 => exact absurd h (by simp)

theorem tryBlock_digits (ls : List (List Char)) (r : Record) (rest : List (List Char))
    (h : tryBlock ls = some (r, rest)) :
    ∀ c ∈ r.bandwidth, c.isDigit = true := by
  unfold tryBlock at h
  split at h
  case h_1 => exact absurd h (by simp)
  case h_2 lr tail =>
    split at h
    · exact absurd h (by simp)
    · split at h
      · exact absurd h (by simp)
      case h_2 la rest' =>
        split at h
        · split at h
          case h_1.h_1 out heq =>
            cases h with
            | refl => exact afterSV_digits _ _ rest' r rest heq
          case h_1.h_2 => exact afterSV_digits _ _ (la :: rest') r rest h
        · exact afterSV_digits _ _ (la :: rest') r rest h

theorem scanF_digits (n : ℕ) : ∀ (ls : List (List Char)) (rec : Record),
    rec ∈ scanF n ls → ∀ c ∈ rec.bandwidth, c.isDigit = true := by
  induction n with
  | zero =>
    intro ls rec h
    simp [scanF] at h
  | succ n ih =>
    intro ls rec h
    match ls with
    | [] => simp [scanF] at h
    | l :: tl =>
      simp only [scanF] at h
      cases htb : tryBlock (l :: tl) with
      | some pr =>
        obtain ⟨r0, rest⟩ := pr
        rw [htb] at h
        rcases List.mem_cons.mp h with h1 | h1
        · rw [h1]
          exact tryBlock_digits (l :: tl) r0 rest htb
        · exact ih rest rec h1
      | none =>
        rw [htb] at h
        exact ih tl rec h

theorem scan_digits (doc : List (List Char)) (rec : Record)
    (h : rec ∈ scan doc) : ∀ c ∈ rec.bandwidth, c.isDigit = true :=
  scanF_digits doc.length doc rec h

/-- A consensus document whose single block carries `w Bandwidth=` with zero
digits: the pattern's `\d*` accepts the empty digit run. -/
def exDocC9 : List (List Char) :=
  ["r a1 x y 2024-01-01 12:00:00 1.2.3.4 9001 0".toList,
   "s Fast".toList,
   "v Tor".toList,
   "w Bandwidth= Unmeasured=1".toList,
   "p reject 1-65535".toList]

/-- The record the extractor produces for `exDocC9`: its bandwidth field is
the empty string. -/
def exRecC9 : Record :=
  ⟨"a1".toList, "x".toList, "y".toList, "2024-01-01 12:00:00".toList,
   "1.2.3.4".toList, "9001".toList, "0".toList, none, "Fast".toList, "Tor".toList,
   [], "p reject 1-65535".toList⟩

/-- C9 is false as stated: the extractor produces a record (the
bandwidth-weight line being present) whose bandwidth field is empty and does
not parse as an integer — `\d*` admits zero digits, and `int("")` raises. -/
theorem C9_counterexample :
    get_details_from_consensus exDocC9 = [exRecC9] ∧
    exRecC9.bandwidth = [] ∧
    pyInt exRecC9.bandwidth = Except.error "invalid literal for int() with base 10" := by
  refine ⟨by decide, rfl, by rfl⟩

/-- C9 (amended): every record the extractor produces has a bandwidth field
consisting only of digits — hence denoting a non-negative integer whenever it
is non-empty, in which case `int` parses it to that value — and the
bandwidth-weight line is mandatory: a block lacking it yields no record.  The
field may, however, be the empty digit string (`\d*` admits zero digits),
which does not parse. -/
theorem C9_amended :
    (∀ (doc : List (List Char)) (rec : Record), rec ∈ get_details_from_consensus doc →
      (∀ c ∈ rec.bandwidth, c.isDigit = true) ∧
      (rec.bandwidth ≠ [] → pyInt rec.bandwidth = Except.ok (natOfDigits rec.bandwidth)))
    ∧ ∀ (b1 bm b2 : Block), WFBlock b1 → WFBlock bm → WFBlock b2 →
        get_details_from_consensus (render b1 ++ (renderDrop Mand.w bm ++ render b2)) =
          [recordOf b1, recordOf b2] := by
  constructor
  · intro doc rec hrec
    have hd := scan_digits doc rec hrec
    refine ⟨hd, fun hne => ?_⟩
    unfold pyInt
    rw [if_pos ⟨hne, hd⟩]
  · intro b1 bm b2 h1 hm h2
    unfold get_details_from_consensus
    rw [scan_render b1 h1]
    have hd := scan_renderDrop Mand.w bm b2 hm h2 []
    rw [List.append_nil] at hd
    rw [hd]
    rfl

instance instDecWFBlock (b : Block) : Decidable (WFBlock b) := by
  unfold WFBlock
  infer_instance

/-- A concrete well-formed block without the optional lines. -/
def exB1 : Block :=
  ⟨"a1".toList, "id1".toList, "dg1".toList, "2024-01-01".toList, "12:00:00".toList,
   "1.2.3.4".toList, "9001".toList, "0".toList, none, "Fast Running".toList,
   "Tor 0.4.8.10".toList, "850".toList, [], false, [], "reject 1-65535".toList⟩

/-- A concrete well-formed block with both optional lines. -/
def exB2 : Block :=
  ⟨"a2".toList, "id2".toList, "dg2".toList, "2024-01-02".toList, "13:00:00".toList,
   "5.6.7.8".toList, "443".toList, "80".toList, some "[2001:db8::1]:9001".toList,
   "Exit Fast".toList, "Tor 0.4.8.9".toList, "20".toList, " Unmeasured=1".toList,
   true, "Cons=1-2 Desc=1-2".toList, "accept 80,443".toList⟩

/-- A concrete two-point input (the Paris-area pair of the spec's example). -/
def exPts : List WPoint := [⟨2, 48, 100⟩, ⟨21 / 10, 481 / 10, 200⟩]

/-- The rendering of the two example blocks as one document. -/
def exDoc1 : List (List Char) := ([exB1, exB2].map render).flatten

/-- A reader that resolves one IP and fails on the rest. -/
def exReader : Reader :=
  fun ip => if ip = "1.2.3.4".toList then (some 2, some 48) else (none, none)

/-- A reader that fails on every IP. -/
def exReaderNone : Reader := fun _ => (none, none)

theorem C1_witness :
    (0 : ℚ) < 2 ∧
    ((∀ i j, i < exPts.length → j < exPts.length →
      (labels exPts 2 i = labels exPts 2 j ↔
        Relation.ReflTransGen
          (fun a b => a < exPts.length ∧ b < exPts.length ∧
            distSq (coords (pget exPts a)) (coords (pget exPts b)) ≤ (2 : ℚ) ^ 2) i j))
    ∧ (∀ i, i < exPts.length →
        labels exPts 2 i ∈ uniqueLabels exPts 2 ∧
        i ∈ memberIdx exPts 2 (labels exPts 2 i) ∧
        ∀ lab, i ∈ memberIdx exPts 2 lab → lab = labels exPts 2 i)
    ∧ (∀ qts : List WPoint, qts.Perm exPts →
        clustersFinsetD qts 2 = clustersFinsetD exPts 2)
    ∧ (∀ ws : List ℚ, ws.length = exPts.length →
        labels (reweight exPts ws) 2 = labels exPts 2 ∧
        ∀ lab, memberIdx (reweight exPts ws) 2 lab = memberIdx exPts 2 lab)) :=
  ⟨zero_lt_two, C1_cluster_partition exPts 2 zero_lt_two⟩

theorem C2_witness :
    (∀ b ∈ [exB1, exB2], WFBlock b) ∧
    (get_details_from_consensus ([exB1, exB2].map render).flatten =
        [exB1, exB2].map recordOf ∧
      ∀ b ∈ [exB1, exB2],
        (recordOf b).nickname = b.nickname ∧ (recordOf b).rid = b.rid ∧
        (recordOf b).digest = b.digest ∧
        (recordOf b).publication = b.pub1 ++ ' ' :: b.pub2 ∧
        (recordOf b).ip = b.ip ∧ (recordOf b).orport = b.orport ∧
        (recordOf b).dirport = b.dirport ∧ (recordOf b).ipv6 = b.ipv6 ∧
        (recordOf b).flags = b.flags ∧ (recordOf b).version = b.version ∧
        (recordOf b).ports = pLine b ∧
        (recordOf b).nickname ≠ [] ∧ (recordOf b).ip ≠ [] ∧
        (recordOf b).bandwidth = b.bw ∧
        pyInt (recordOf b).bandwidth = Except.ok (natOfDigits b.bw)) :=
  ⟨by decide, C2_extractor_wellformed [exB1, exB2] (by decide)⟩

theorem C3_witness :
    (∀ rec ∈ [recordOf exB1, recordOf exB2],
        rec.bandwidth ≠ [] ∧ ∀ c ∈ rec.bandwidth, c.isDigit = true) ∧
    ∃ ds ps, buildPoints exReader [recordOf exB1, recordOf exB2] = Except.ok (ds, ps) ∧
      ds = ([recordOf exB1, recordOf exB2].filter (failsGeo exReader)).map
        (fun rec => mkDiag rec.ip) ∧
      ps = ([recordOf exB1, recordOf exB2].filter
          fun rec => !failsGeo exReader rec).map (fun rec =>
        ⟨((exReader rec.ip).1).getD 0, ((exReader rec.ip).2).getD 0,
          (natOfDigits rec.bandwidth : ℚ)⟩) ∧
      (∀ rec ∈ [recordOf exB1, recordOf exB2],
        failsGeo exReader rec = true → mkDiag rec.ip ∈ ds) ∧
      (∀ ip, ∃ pre suf, mkDiag ip = pre ++ (ip ++ suf)) :=
  ⟨by decide,
   C3_geocode_failure_nonfatal exReader [recordOf exB1, recordOf exB2] (by decide)⟩

theorem C4_witness :
    (∀ rec ∈ get_details_from_consensus exDoc1, failsGeo exReaderNone rec = true) ∧
    ∃ e, mainRun exDoc1 exReaderNone 2 false = Except.error e :=
  ⟨by decide, C4_empty_result_fatal exDoc1 exReaderNone 2 false (by decide)⟩

theorem C5_witness :
    exPts ≠ [] ∧
    ∃ cs vmax vmin, cluster_coordinates exPts 2 false = Except.ok (cs, vmax, vmin) ∧
      cs = clustersOf exPts 2 false ∧
      vmax ∈ cs.map Prod.snd ∧ vmin ∈ cs.map Prod.snd ∧
      ∀ v ∈ cs.map Prod.snd, vmin ≤ v ∧ v ≤ vmax :=
  ⟨by simp [exPts], C5_minmax exPts 2 false (by simp [exPts])⟩

theorem C6_witness :
    (clustersOf exPts 2 true).map Prod.fst = (clustersOf exPts 2 false).map Prod.fst ∧
    (clustersOf (reweight exPts [5, 7]) 2 false).map Prod.fst =
      (clustersOf exPts 2 false).map Prod.fst :=
  ⟨(C6_centers_unweighted exPts 2 false).2.1,
   (C6_centers_unweighted exPts 2 false).2.2 [5, 7] (by decide)⟩

theorem C8_witness :
    WFBlock exB1 ∧ WFBlock exB2 ∧
    (get_details_from_consensus (render exB1 ++ (renderDrop Mand.v exB2 ++ render exB1)) =
        [recordOf exB1, recordOf exB1] ∧
      get_details_from_consensus (render exB1 ++ render exB1) =
        [recordOf exB1, recordOf exB1]) :=
  ⟨by decide, by decide,
   C8_malformed_block_skipped Mand.v exB1 exB2 exB1 (by decide) (by decide) (by decide)⟩

theorem C9_witness :
    ((∀ c ∈ (recordOf exB1).bandwidth, c.isDigit = true) ∧
      ((recordOf exB1).bandwidth ≠ [] →
        pyInt (recordOf exB1).bandwidth =
          Except.ok (natOfDigits (recordOf exB1).bandwidth))) ∧
    get_details_from_consensus (render exB2 ++ (renderDrop Mand.w exB1 ++ render exB2)) =
      [recordOf exB2, recordOf exB2] :=
  ⟨C9_amended.1 exDoc1 (recordOf exB1) (by decide),
   C9_amended.2 exB2 exB1 exB2 (by decide) (by decide) (by decide)⟩

theorem C10_witness :
    exPts ≠ [] ∧
    ((∀ v ∈ (clustersOf exPts 2 false).map Prod.snd, ∃ k : ℕ, v = (k : ℚ) ∧ 1 ≤ k) ∧
      ∃ cs vmax vmin, cluster_coordinates exPts 2 false = Except.ok (cs, vmax, vmin) ∧
        1 ≤ vmin ∧ 0 < vmin) :=
  ⟨by simp [exPts], C10_count_values_positive exPts 2 (by simp [exPts])⟩
